import Mathlib

/-!
Cluster store of the hardware-discovery aggregator.

A shallow embedding of `grpcClientTestingDyanmic/main.go`: the store
`ConcurrentClusterData` (a slice of node records plus a map from pod UID to
slice index), its two mutators `UpdateNode` and `RemoveNode`, the snapshot
functions `deepCopy` / `GetCurrentClusterState`, the receive loop of
`connectToGrpcStream` and the HTTP handler `getClusterStateHandler`.

The record type `v1.Node` comes from an external package; it is a type
parameter `Node`, handled as a whole value exactly as the Go code handles it
(`*node` is copied, never inspected).

The store is given twice: over lists (`UpdateNode`, `RemoveNode`, ...), where
a slice is the sequence of its elements, and over a heap of backing arrays
(`Mem.UpdateNode`, `Mem.RemoveNode`, ...), where a slice is a header that
refers to an array and two slices can share one. The second is what the
questions about a snapshot that outlives the call need; `Mem.run_spec` ties
the two together. `NodeRecord` is a record type with a slice-typed field of
its own, for what a struct copy of a record shares.
-/

set_option autoImplicit false

namespace Inventory

/-! ## The pod-UID-to-index map (`map[string]int`) -/

/-- Go `map[string]int`, as a list of entries; the operations below keep at
most one entry per key. Every index the program stores is a slice length
minus one or a positive index minus one, so indices are natural numbers. -/
abbrev PodNodeMap := List (String × Nat)

/-- Map read `v, ok := m[k]`: `some v` when the key is present. -/
def mapGet : PodNodeMap → String → Option Nat
  | [], _ => none
  | (k', v) :: rest, k => if k' = k then some v else mapGet rest k

/-- Map write `m[k] = v`: replaces the value of an existing key, adds the key
otherwise. -/
def mapSet : PodNodeMap → String → Nat → PodNodeMap
  | [], k, v => [(k, v)]
  | (k', v') :: rest, k, v =>
    if k' = k then (k', v) :: rest else (k', v') :: mapSet rest k v

/-- Map delete `delete(m, k)`. -/
def mapDelete (m : PodNodeMap) (k : String) : PodNodeMap :=
  m.filter (fun e => decide (e.1 ≠ k))

/-! ## The store -/

/-- The part of `v1.Cluster` the program uses: the `Nodes` slice. -/
structure Cluster (Node : Type) where
  Nodes : List Node
  deriving DecidableEq, Repr

/-- The fields of `ConcurrentClusterData` (the embedded `sync.RWMutex` is the
lock of the interleaving model further down). -/
structure ConcurrentClusterData (Node : Type) where
  cluster : Cluster Node
  podNodeMap : PodNodeMap
  deriving DecidableEq, Repr

variable {Node : Type}

/-- `NewConcurrentClusterData`: empty `Nodes` slice and empty map. -/
def NewConcurrentClusterData : ConcurrentClusterData Node :=
  { cluster := { Nodes := [] }, podNodeMap := [] }

/-- `GetInstance` at its first call: the singleton is built with the same
literal as `NewConcurrentClusterData`. -/
def GetInstance : ConcurrentClusterData Node :=
  { cluster := { Nodes := [] }, podNodeMap := [] }

/-- `UpdateNode`. `none` stands for the run-time panic of an out-of-range
`ccd.cluster.Nodes[nodeIndex]`. -/
def UpdateNode (ccd : ConcurrentClusterData Node) (podUID : String) (node : Node) :
    Option (ConcurrentClusterData Node) :=
  match mapGet ccd.podNodeMap podUID with
  | some nodeIndex =>
    if nodeIndex < ccd.cluster.Nodes.length then
      some { ccd with cluster := { Nodes := ccd.cluster.Nodes.set nodeIndex node } }
    else none
  | none =>
    let nodes := ccd.cluster.Nodes ++ [node]
    some { cluster := { Nodes := nodes },
           podNodeMap := mapSet ccd.podNodeMap podUID (nodes.length - 1) }

/-- The loop `for podUID, index := range ccd.podNodeMap` of `RemoveNode`, run
over the entries `es` of the map: an entry whose index is above `nodeIndex`
is rewritten in the map `acc` with its index decremented. The loop only
assigns to keys that exist, so it visits every entry once; the order of the
visits is left open by Go and does not matter (`reindex_any_order`). -/
def reindex (nodeIndex : Nat) : List (String × Nat) → PodNodeMap → PodNodeMap
  | [], acc => acc
  | (podUID, index) :: rest, acc =>
    reindex nodeIndex rest
      (if index > nodeIndex then mapSet acc podUID (index - 1) else acc)

/-- `RemoveNode`. `none` stands for the run-time panic of an out-of-range
slice expression `Nodes[:nodeIndex]` or `Nodes[nodeIndex+1:]`. -/
def RemoveNode (ccd : ConcurrentClusterData Node) (podUID : String) :
    Option (ConcurrentClusterData Node) :=
  match mapGet ccd.podNodeMap podUID with
  | some nodeIndex =>
    if nodeIndex + 1 ≤ ccd.cluster.Nodes.length then
      let nodes := ccd.cluster.Nodes.take nodeIndex ++ ccd.cluster.Nodes.drop (nodeIndex + 1)
      let m := mapDelete ccd.podNodeMap podUID
      some { cluster := { Nodes := nodes }, podNodeMap := reindex nodeIndex m m }
    else none
  | none => some ccd

/-- One call on the store. -/
inductive Op (Node : Type) where
  | update (podUID : String) (node : Node)
  | remove (podUID : String)
  deriving DecidableEq, Repr

/-- Applies one call. -/
def applyOp (ccd : ConcurrentClusterData Node) : Op Node → Option (ConcurrentClusterData Node)
  | .update podUID node => UpdateNode ccd podUID node
  | .remove podUID => RemoveNode ccd podUID

/-- Applies a sequence of calls, left to right; a panic stops the run. -/
def run : List (Op Node) → ConcurrentClusterData Node → Option (ConcurrentClusterData Node)
  | [], ccd => some ccd
  | op :: ops, ccd => (applyOp ccd op).bind (run ops)

/-- The stores the program can be in: those a finite sequence of
`UpdateNode` / `RemoveNode` calls produces from the empty store. -/
def Reachable (ccd : ConcurrentClusterData Node) : Prop :=
  ∃ ops : List (Op Node), run ops NewConcurrentClusterData = some ccd

/-- The record a pod UID resolves to: `cluster.Nodes[podNodeMap[podUID]]`. -/
def resolve (ccd : ConcurrentClusterData Node) (podUID : String) : Option Node :=
  (mapGet ccd.podNodeMap podUID).bind (fun i => ccd.cluster.Nodes[i]?)

/-- Rewrite of one entry by the re-indexing loop. -/
def shift (nodeIndex : Nat) (e : String × Nat) : String × Nat :=
  if e.2 > nodeIndex then (e.1, e.2 - 1) else e

/-- The representation invariant of the store: one entry per pod UID, no two
UIDs on the same index, every index inside the slice, and as many entries as
records. -/
structure Inv (s : ConcurrentClusterData Node) : Prop where
  keys_nodup : (s.podNodeMap.map Prod.fst).Nodup
  vals_nodup : (s.podNodeMap.map Prod.snd).Nodup
  bound : ∀ e ∈ s.podNodeMap, e.2 < s.cluster.Nodes.length
  card : s.podNodeMap.length = s.cluster.Nodes.length

/-! ## The stream connector -/

/-- The receive loop of `connectToGrpcStream` for pod UID `podUID`, run on a
stream whose `Recv` yields the messages of the list and then an error (a clean
`io.EOF` included): `UpdateNode` for every message, then one `RemoveNode` and
`break`. The result lists the store after each of these calls, in order. -/
def recvLoop (podUID : String) :
    List Node → ConcurrentClusterData Node → Option (List (ConcurrentClusterData Node))
  | [], ccd => (RemoveNode ccd podUID).map (fun s => [s])
  | node :: rest, ccd =>
    (UpdateNode ccd podUID node).bind (fun s => (recvLoop podUID rest s).map (fun t => s :: t))

/-! ## The snapshot -/

/-- `make([]v1.Node, n)`: a fresh slice of `n` zero-valued records. -/
def makeNodes [Inhabited Node] (n : Nat) : List Node :=
  List.replicate n default

/-- The loop `for i, node := range cluster.Nodes { copied.Nodes[i] = node }`
of `deepCopy`, from index `i` on. `none` stands for the panic of an
out-of-range `copied.Nodes[i]`. -/
def copyLoop : List Node → Nat → List Node → Option (List Node)
  | [], _, copied => some copied
  | node :: rest, i, copied =>
    if i < copied.length then copyLoop rest (i + 1) (copied.set i node) else none

/-- `deepCopy`. The argument and the result are pointers: the inner `none` is
`nil`; the outer `none` is a panic. -/
def deepCopy [Inhabited Node] : Option (Cluster Node) → Option (Option (Cluster Node))
  | none => some none
  | some cluster =>
    let copied := makeNodes cluster.Nodes.length
    (copyLoop cluster.Nodes 0 copied).map (fun nodes => some { Nodes := nodes })

/-- `GetCurrentClusterState`, with the singleton `instance` passed in. -/
def GetCurrentClusterState [Inhabited Node] (clusterData : ConcurrentClusterData Node) :
    Option (Option (Cluster Node)) :=
  deepCopy (some clusterData.cluster)

/-! ## The store with its slices on a heap

Aliasing between the store and a snapshot is a matter of which backing array
a slice points to, so the same functions are given once more over a heap of
backing arrays. -/

/-- A Go slice header. Every slice of the program starts at the first element
of its backing array (`s[:i]`, `append`, `make`), so there is no offset. -/
structure Slice where
  ptr : Nat
  len : Nat
  cap : Nat
  deriving DecidableEq, Repr, Inhabited

/-- The heap: the backing arrays, by address. -/
abbrev Heap (Node : Type) := List (List Node)

namespace Mem

/-- The backing array at an address. -/
def array (h : Heap Node) (p : Nat) : List Node :=
  h.getD p []

/-- The elements a slice shows: the first `len` elements of its array. -/
def read (h : Heap Node) (s : Slice) : List Node :=
  (array h s.ptr).take s.len

/-- `make([]v1.Node, n)`: a fresh array of `n` zero values. -/
def sliceMake [Inhabited Node] (h : Heap Node) (n : Nat) : Heap Node × Slice :=
  (h ++ [List.replicate n default], { ptr := h.length, len := n, cap := n })

/-- `s[i] = v`, written into the backing array; `none` is the index panic. -/
def sliceSet (h : Heap Node) (s : Slice) (i : Nat) (v : Node) : Option (Heap Node) :=
  if i < s.len then some (h.set s.ptr ((array h s.ptr).set i v)) else none

/-- `append(s, v)`: in place when the capacity allows, otherwise into a fresh
array whose capacity the run-time's growth policy `grow` chooses (at least the
needed length). -/
def sliceAppend [Inhabited Node] (grow : Nat → Nat) (h : Heap Node) (s : Slice) (v : Node) :
    Heap Node × Slice :=
  if s.len < s.cap then
    (h.set s.ptr ((array h s.ptr).set s.len v), { s with len := s.len + 1 })
  else
    let cap' := max (s.len + 1) (grow s.cap)
    (h ++ [read h s ++ [v] ++ List.replicate (cap' - (s.len + 1)) default],
      { ptr := h.length, len := s.len + 1, cap := cap' })

/-- `append(s[:i], s[i+1:]...)`: the tail is moved down inside the backing
array of `s`, which always has room for it; the last element of the old slice
stays in the array beyond the new length. `none` is the panic of `s[i+1:]`. -/
def sliceRemove (h : Heap Node) (s : Slice) (i : Nat) : Option (Heap Node × Slice) :=
  if i + 1 ≤ s.len then
    let arr := array h s.ptr
    some (h.set s.ptr (arr.take i ++ (arr.drop (i + 1)).take (s.len - (i + 1)) ++ arr.drop (s.len - 1)),
      { s with len := s.len - 1 })
  else none

/-- `ConcurrentClusterData` with `cluster.Nodes` as a slice into the heap. -/
structure Store (Node : Type) where
  heap : Heap Node
  nodes : Slice
  podNodeMap : PodNodeMap
  deriving DecidableEq, Repr

/-- The sequential store a heap store stands for. -/
def abs (hs : Store Node) : ConcurrentClusterData Node :=
  { cluster := { Nodes := read hs.heap hs.nodes }, podNodeMap := hs.podNodeMap }

/-- `NewConcurrentClusterData` in a heap `h0`: `[]v1.Node{}` is an empty slice
of capacity 0. -/
def NewConcurrentClusterData (h0 : Heap Node) : Store Node :=
  { heap := h0 ++ [[]], nodes := { ptr := h0.length, len := 0, cap := 0 }, podNodeMap := [] }

/-- `UpdateNode` on the heap. -/
def UpdateNode [Inhabited Node] (grow : Nat → Nat) (hs : Store Node) (podUID : String)
    (node : Node) : Option (Store Node) :=
  match mapGet hs.podNodeMap podUID with
  | some nodeIndex =>
    (sliceSet hs.heap hs.nodes nodeIndex node).map (fun h => { hs with heap := h })
  | none =>
    let r := sliceAppend grow hs.heap hs.nodes node
    some { heap := r.1, nodes := r.2, podNodeMap := mapSet hs.podNodeMap podUID (r.2.len - 1) }

/-- `RemoveNode` on the heap. -/
def RemoveNode (hs : Store Node) (podUID : String) : Option (Store Node) :=
  match mapGet hs.podNodeMap podUID with
  | some nodeIndex =>
    (sliceRemove hs.heap hs.nodes nodeIndex).map (fun r =>
      let m := mapDelete hs.podNodeMap podUID
      { heap := r.1, nodes := r.2, podNodeMap := reindex nodeIndex m m })
  | none => some hs

/-- Applies one call on the heap store. -/
def applyOp [Inhabited Node] (grow : Nat → Nat) (hs : Store Node) : Op Node → Option (Store Node)
  | .update podUID node => UpdateNode grow hs podUID node
  | .remove podUID => RemoveNode hs podUID

/-- Applies a sequence of calls on the heap store. -/
def run [Inhabited Node] (grow : Nat → Nat) :
    List (Op Node) → Store Node → Option (Store Node)
  | [], hs => some hs
  | op :: ops, hs => (applyOp grow hs op).bind (run grow ops)

/-- The heap stores the program can be in. -/
def Reachable [Inhabited Node] (grow : Nat → Nat) (hs : Store Node) : Prop :=
  ∃ (h0 : Heap Node) (ops : List (Op Node)), run grow ops (NewConcurrentClusterData h0) = some hs

/-- The loop `for i, node := range cluster.Nodes { copied.Nodes[i] = node }`
on the heap: `n` iterations are left, `i` is the index; the element is read
from the array of `src` at each iteration. -/
def copyLoop (src copied : Slice) : Nat → Nat → Heap Node → Option (Heap Node)
  | 0, _, h => some h
  | n + 1, i, h =>
    ((array h src.ptr)[i]?).bind (fun node =>
      (sliceSet h copied i node).bind (fun h' => copyLoop src copied n (i + 1) h'))

/-- `deepCopy` on the heap: the result is the new heap and the `Nodes` slice
of the copy (`none` for a `nil` argument). -/
def deepCopy [Inhabited Node] (h : Heap Node) :
    Option Slice → Option (Heap Node × Option Slice)
  | none => some (h, none)
  | some nodes =>
    let r := sliceMake h nodes.len
    (copyLoop nodes r.2 nodes.len 0 r.1).map (fun h' => (h', some r.2))

/-- `GetCurrentClusterState` on the heap. -/
def GetCurrentClusterState [Inhabited Node] (clusterData : Store Node) :
    Option (Heap Node × Option Slice) :=
  deepCopy clusterData.heap (some clusterData.nodes)

/-- What the holder of a snapshot can do to its `Nodes` slice. -/
inductive SnapshotMutation (Node : Type) where
  /-- `snap.Nodes[i] = v` -/
  | setNode (i : Nat) (v : Node)
  /-- `snap.Nodes = append(snap.Nodes, v)` -/
  | appendNode (v : Node)
  /-- `snap.Nodes = snap.Nodes[:k]` -/
  | reslice (k : Nat)
  /-- `snap.Nodes = append(snap.Nodes[:i], snap.Nodes[i+1:]...)` -/
  | removeNode (i : Nat)
  deriving DecidableEq, Repr

/-- Applies one mutation of the snapshot holder. -/
def mutate [Inhabited Node] (grow : Nat → Nat) (h : Heap Node) (snap : Slice) :
    SnapshotMutation Node → Option (Heap Node × Slice)
  | .setNode i v => (sliceSet h snap i v).map (fun h' => (h', snap))
  | .appendNode v => some (sliceAppend grow h snap v)
  | .reslice k => if k ≤ snap.cap then some (h, { snap with len := k }) else none
  | .removeNode i => sliceRemove h snap i

/-- Applies a sequence of mutations of the snapshot holder. -/
def mutateAll [Inhabited Node] (grow : Nat → Nat) :
    List (SnapshotMutation Node) → Heap Node → Slice → Option (Heap Node × Slice)
  | [], h, snap => some (h, snap)
  | m :: ms, h, snap => (mutate grow h snap m).bind (fun r => mutateAll grow ms r.1 r.2)

/-- A heap store for examples: `a`, `b`, `c` upserted in this order into a new
store, under a growth policy that doubles the capacity. -/
def demoStore : Store Nat :=
  { heap := [[], [1], [1, 2], [1, 2, 3, 0]],
    nodes := { ptr := 3, len := 3, cap := 4 },
    podNodeMap := [("a", 0), ("b", 1), ("c", 2)] }

/-- A slice is well formed in a heap: its array is allocated, has the slice's
capacity as its length, and the length is within the capacity. -/
def WF (h : Heap Node) (s : Slice) : Prop :=
  s.ptr < h.length ∧ (array h s.ptr).length = s.cap ∧ s.len ≤ s.cap

/-- The effect of an operation on the slice `s`: the new slice `s'` is well
formed, it is in the old array or in a fresh one, and every other array of
the old heap is left as it was. -/
structure Owns (h : Heap Node) (s : Slice) (h' : Heap Node) (s' : Slice) : Prop where
  wf : WF h' s'
  mono : h.length ≤ h'.length
  ptr : s'.ptr = s.ptr ∨ h.length ≤ s'.ptr
  frame : ∀ q, q < h.length → q ≠ s.ptr → array h' q = array h q

end Mem

/-! ## Records with a slice-typed field -/

/-- Modelled from the spec: the declaration of the record type `v1.Node` is in
an external package. The data model of the spec gives a record scalar fields
(vendor, model, ...) and an accelerator inventory; here one scalar field and
the inventory, a Go slice, that is a header that refers to a backing array of
its own. The zero value has the empty string and the nil slice. -/
structure NodeRecord where
  model : String
  accelerators : Slice
  deriving DecidableEq, Repr, Inhabited

/-- What a record shows to a reader that follows its slice: the scalar field
and the elements of the inventory, read from the heap `objs` of inventory
arrays. -/
def deepRead (objs : Heap String) (r : NodeRecord) : String × List String :=
  (r.model, Mem.read objs r.accelerators)

/-- The statement `snap.Nodes[i].accelerators[k] = v` of a snapshot holder:
the record is read from the snapshot, the element is written through the
slice header the record carries. `none` is an index panic. -/
def setAccelerator (objs : Heap String) (h : Heap NodeRecord) (snap : Slice)
    (i k : Nat) (v : String) : Option (Heap String) :=
  ((Mem.read h snap)[i]?).bind (fun r => Mem.sliceSet objs r.accelerators k v)

/-- A heap store for examples with one record, of pod `a`, whose inventory is
the array at address 0 of the inventory heap `[["t4"]]`. -/
def gpuStore : Mem.Store NodeRecord :=
  { heap := [[], [{ model := "gpu-node", accelerators := { ptr := 0, len := 1, cap := 1 } }]],
    nodes := { ptr := 1, len := 1, cap := 1 },
    podNodeMap := [("a", 0)] }

/-! ## The HTTP handler -/

/-- JSON values, as `encoding/json` produces them. -/
inductive JSON where
  | null
  | num (n : Nat)
  | str (s : String)
  | arr (items : List JSON)
  | obj (members : List (String × JSON))

/-- What the declaration of the struct `v1.Cluster` and of `v1.Node` (both in
an external package) fix for `encoding/json`: the member name of the field
`Nodes`, the members of the other fields of a `Cluster` that `deepCopy` has
built (it sets `Nodes` only) before and after it, and the encoding of one
record (`none` when it cannot be encoded). -/
structure ClusterEncoding (Node : Type) where
  nodesKey : String
  before : List (String × JSON)
  after : List (String × JSON)
  encodeNode : Node → Option JSON

/-- Encoding of the elements of a slice, in order; fails when one fails. -/
def encodeNodes (enc : ClusterEncoding Node) : List Node → Option (List JSON)
  | [] => some []
  | node :: rest =>
    (enc.encodeNode node).bind (fun j => (encodeNodes enc rest).map (fun js => j :: js))

/-- `json.NewEncoder(w).Encode(clusterState)` for a `*v1.Cluster`: `null` for
a nil pointer, otherwise the JSON object of the struct, whose member for the
(non-nil) slice `Nodes` is the JSON array of the records. -/
def encodeCluster (enc : ClusterEncoding Node) : Option (Cluster Node) → Option JSON
  | none => some JSON.null
  | some cluster =>
    (encodeNodes enc cluster.Nodes).map (fun js =>
      JSON.obj (enc.before ++ [(enc.nodesKey, JSON.arr js)] ++ enc.after))

/-- What `getClusterStateHandler` leaves in the `http.ResponseWriter`. -/
structure Response where
  status : Nat
  contentType : Option String
  body : Option JSON

/-- `getClusterStateHandler`, with the singleton store passed in: the header
is set, then the snapshot is encoded into the body (status 200 by default);
when encoding fails nothing is written and the status is set to 500. The
outer `none` is a panic inside `GetCurrentClusterState`. -/
def getClusterStateHandler [Inhabited Node] (enc : ClusterEncoding Node)
    (clusterData : ConcurrentClusterData Node) : Option Response :=
  (GetCurrentClusterState clusterData).map (fun clusterState =>
    match encodeCluster enc clusterState with
    | some j => { status := 200, contentType := some "application/json", body := some j }
    | none => { status := 500, contentType := some "application/json", body := none })

/-- An encoding for examples: one member `nodes`, records as numbers. -/
def demoEncoding : ClusterEncoding Nat :=
  { nodesKey := "nodes", before := [], after := [], encodeNode := fun n => some (JSON.num n) }

/-! ## Goroutines: a reader beside a writer -/

/-- The store, the state of its `sync.RWMutex`, and the locals of one
goroutine that runs `GetCurrentClusterState`. -/
structure Sys (Node : Type) where
  store : ConcurrentClusterData Node
  /-- the mutex is held by a writer -/
  locked : Bool
  /-- `copied.Nodes` of `deepCopy`, once `make` has run -/
  copied : Option (List Node)
  /-- the `Nodes` of the snapshot `deepCopy` returned -/
  snapshot : Option (List Node)

/-- The atomic steps of the two goroutines. The writer runs `UpdateNode` or
`RemoveNode`: `ccd.Lock()`, the body, the deferred `ccd.Unlock()`. The reader
runs `GetCurrentClusterState`, that is `deepCopy(clusterData.cluster)`: the
`make` of line 100, then the `range` loop of lines 101-106; the source takes
no lock on this path, so neither step looks at the mutex. -/
inductive Event (Node : Type) where
  | writerLock
  | writerBody (op : Op Node)
  | writerUnlock
  | readerMake
  | readerRange

/-- One atomic step; `none` when the step cannot be taken (the mutex is
already held, or not held by the writer) or panics. -/
def step [Inhabited Node] (σ : Sys Node) : Event Node → Option (Sys Node)
  | .writerLock => if σ.locked then none else some { σ with locked := true }
  | .writerBody op =>
    if σ.locked then (applyOp σ.store op).map (fun s => { σ with store := s }) else none
  | .writerUnlock => if σ.locked then some { σ with locked := false } else none
  | .readerMake => some { σ with copied := some (makeNodes σ.store.cluster.Nodes.length) }
  | .readerRange =>
    match σ.copied with
    | some copied =>
      (copyLoop σ.store.cluster.Nodes 0 copied).map (fun nodes => { σ with snapshot := some nodes })
    | none => none

/-- Runs a schedule of atomic steps. -/
def exec [Inhabited Node] : List (Event Node) → Sys Node → Option (Sys Node)
  | [], σ => some σ
  | e :: es, σ => (step σ e).bind (exec es)

/-- The system before either goroutine has started. -/
def Sys.init (store : ConcurrentClusterData Node) : Sys Node :=
  { store := store, locked := false, copied := none, snapshot := none }

/-! ## Facts about the map operations -/

theorem shift_fst (i : Nat) (e : String × Nat) : (shift i e).1 = e.1 := by
  unfold shift; split <;> rfl

theorem shift_snd (i : Nat) (e : String × Nat) :
    (shift i e).2 = if e.2 > i then e.2 - 1 else e.2 := by
  unfold shift; split <;> rfl

theorem map_fst_shift (i : Nat) (m : PodNodeMap) :
    (m.map (shift i)).map Prod.fst = m.map Prod.fst := by
  induction m with
  | nil => rfl
  | cons e rest ih => simp [shift_fst, ih]

theorem mapGet_eq_none_iff (m : PodNodeMap) (k : String) :
    mapGet m k = none ↔ k ∉ m.map Prod.fst := by
  induction m with
  | nil => simp [mapGet]
  | cons e rest ih =>
    obtain ⟨k', v⟩ := e
    by_cases h : k' = k
    · simp [mapGet, h]
    · simp only [mapGet, h, if_false, ih, List.map_cons, List.mem_cons, not_or]
      constructor
      · intro h2; exact ⟨fun h3 => h h3.symm, h2⟩
      · intro h2; exact h2.2

theorem mem_of_mapGet {m : PodNodeMap} {k : String} {v : Nat}
    (h : mapGet m k = some v) : (k, v) ∈ m := by
  induction m with
  | nil => simp [mapGet] at h
  | cons e rest ih =>
    obtain ⟨k', v'⟩ := e
    by_cases hk : k' = k
    · simp [mapGet, hk] at h; simp [hk, h]
    · simp [mapGet, hk] at h; exact List.mem_cons_of_mem _ (ih h)

theorem mapGet_of_mem {m : PodNodeMap} {k : String} {v : Nat}
    (hn : (m.map Prod.fst).Nodup) (h : (k, v) ∈ m) : mapGet m k = some v := by
  induction m with
  | nil => simp at h
  | cons e rest ih =>
    obtain ⟨k', v'⟩ := e
    simp only [List.map_cons, List.nodup_cons] at hn
    rcases List.mem_cons.mp h with h1 | h1
    · cases h1; simp [mapGet]
    · have hk : k' ≠ k := by
        intro hk; subst hk
        exact hn.1 (List.mem_map.mpr ⟨(k', v), h1, rfl⟩)
      simp [mapGet, hk, ih hn.2 h1]

theorem mapSet_append_of_not_mem (l r : PodNodeMap) (k : String) (v v' : Nat)
    (h : k ∉ l.map Prod.fst) :
    mapSet (l ++ (k, v) :: r) k v' = l ++ (k, v') :: r := by
  induction l with
  | nil => simp [mapSet]
  | cons e rest ih =>
    obtain ⟨k', w⟩ := e
    simp only [List.map_cons, List.mem_cons, not_or] at h
    have hk : k' ≠ k := fun hk => h.1 hk.symm
    simp [mapSet, hk, ih h.2]

theorem mapSet_of_absent (m : PodNodeMap) (k : String) (v : Nat)
    (h : mapGet m k = none) : mapSet m k v = m ++ [(k, v)] := by
  induction m with
  | nil => rfl
  | cons e rest ih =>
    obtain ⟨k', w⟩ := e
    by_cases hk : k' = k
    · simp [mapGet, hk] at h
    · simp [mapGet, hk] at h
      simp [mapSet, hk, ih h]

/-- With one entry per key, the re-indexing loop rewrites every entry once. -/
theorem reindex_eq_map_aux (i : Nat) (es done : PodNodeMap)
    (hn : ((done ++ es).map Prod.fst).Nodup) :
    reindex i es (done.map (shift i) ++ es) = (done ++ es).map (shift i) := by
  induction es generalizing done with
  | nil => simp [reindex]
  | cons e rest ih =>
    obtain ⟨k, v⟩ := e
    have hk : k ∉ (done.map (shift i)).map Prod.fst := by
      rw [map_fst_shift]
      intro hmem
      rw [List.map_append, List.nodup_append] at hn
      exact hn.2.2 hmem (by simp)
    have hn' : (((done ++ [(k, v)]) ++ rest).map Prod.fst).Nodup := by
      simpa using hn
    have step := ih (done ++ [(k, v)]) hn'
    simp only [reindex]
    by_cases hv : v > i
    · rw [if_pos hv, mapSet_append_of_not_mem _ _ _ _ _ hk]
      have e1 : (done ++ [(k, v)]).map (shift i) ++ rest
          = done.map (shift i) ++ (k, v - 1) :: rest := by
        simp [shift, hv]
      rw [e1] at step
      rw [step]; simp
    · rw [if_neg hv]
      have e1 : (done ++ [(k, v)]).map (shift i) ++ rest
          = done.map (shift i) ++ (k, v) :: rest := by
        simp [shift, hv]
      rw [e1] at step
      rw [step]; simp

theorem reindex_eq_map (i : Nat) (m : PodNodeMap) (hn : (m.map Prod.fst).Nodup) :
    reindex i m m = m.map (shift i) := by
  simpa using reindex_eq_map_aux i m [] (by simpa using hn)

theorem mapDelete_keys (m : PodNodeMap) (k : String) :
    (mapDelete m k).map Prod.fst = (m.map Prod.fst).filter (fun x => decide (x ≠ k)) := by
  induction m with
  | nil => rfl
  | cons e rest ih =>
    obtain ⟨k', w⟩ := e
    by_cases hk : k' = k
    · simp [mapDelete, List.filter_cons, hk] at ih ⊢; exact ih
    · simp [mapDelete, List.filter_cons, hk] at ih ⊢; exact ih

theorem mapDelete_nodup {m : PodNodeMap} (k : String) (hn : (m.map Prod.fst).Nodup) :
    ((mapDelete m k).map Prod.fst).Nodup := by
  rw [mapDelete_keys]; exact hn.filter _

theorem mapGet_mapDelete_self (m : PodNodeMap) (k : String) :
    mapGet (mapDelete m k) k = none := by
  rw [mapGet_eq_none_iff, mapDelete_keys]
  simp

theorem mapDelete_cons_eq (rest : PodNodeMap) (k : String) (w : Nat) :
    mapDelete ((k, w) :: rest) k = mapDelete rest k := by
  simp [mapDelete]

theorem mapDelete_cons_ne (rest : PodNodeMap) {k k' : String} (w : Nat) (h : k' ≠ k) :
    mapDelete ((k', w) :: rest) k = (k', w) :: mapDelete rest k := by
  simp [mapDelete, h]

theorem mapGet_mapDelete_ne (m : PodNodeMap) {k y : String} (h : y ≠ k) :
    mapGet (mapDelete m k) y = mapGet m y := by
  induction m with
  | nil => rfl
  | cons e rest ih =>
    obtain ⟨k', w⟩ := e
    by_cases hk : k' = k
    · subst hk
      have hy : k' ≠ y := fun h2 => h h2.symm
      rw [mapDelete_cons_eq, ih]
      simp [mapGet, hy]
    · rw [mapDelete_cons_ne _ _ hk]
      by_cases hy : k' = y
      · simp [mapGet, hy]
      · simp [mapGet, hy, ih]

theorem mapDelete_of_absent (m : PodNodeMap) (k : String) (h : mapGet m k = none) :
    mapDelete m k = m := by
  rw [mapGet_eq_none_iff] at h
  unfold mapDelete
  rw [List.filter_eq_self]
  intro e he
  have : e.1 ≠ k := fun hk => h (List.mem_map.mpr ⟨e, he, hk⟩)
  simpa using this

theorem mapGet_map_shift (i : Nat) (m : PodNodeMap) (y : String) :
    mapGet (m.map (shift i)) y
      = (mapGet m y).map (fun v => if v > i then v - 1 else v) := by
  induction m with
  | nil => rfl
  | cons e rest ih =>
    obtain ⟨k', w⟩ := e
    rw [List.map_cons]
    have h1 : shift i (k', w) = (k', if w > i then w - 1 else w) := by
      unfold shift; split <;> simp_all
    rw [h1]
    by_cases hy : k' = y
    · simp [mapGet, hy]
    · simp [mapGet, hy, ih]

theorem mapDelete_length {m : PodNodeMap} {k : String} {v : Nat}
    (hn : (m.map Prod.fst).Nodup) (h : mapGet m k = some v) :
    (mapDelete m k).length + 1 = m.length := by
  induction m with
  | nil => simp [mapGet] at h
  | cons e rest ih =>
    obtain ⟨k', w⟩ := e
    simp only [List.map_cons, List.nodup_cons] at hn
    by_cases hk : k' = k
    · subst hk
      rw [mapDelete_cons_eq, mapDelete_of_absent rest k' ((mapGet_eq_none_iff _ _).mpr hn.1)]
      rfl
    · rw [mapDelete_cons_ne _ _ hk]
      simp only [mapGet, hk, if_false] at h
      simp [ih hn.2 h]

theorem mem_mapDelete {m : PodNodeMap} {k : String} {e : String × Nat} :
    e ∈ mapDelete m k ↔ e ∈ m ∧ e.1 ≠ k := by
  simp [mapDelete]

/-! ## The store invariant is kept -/

theorem inv_new : Inv (NewConcurrentClusterData : ConcurrentClusterData Node) :=
  ⟨by simp [NewConcurrentClusterData], by simp [NewConcurrentClusterData],
   by simp [NewConcurrentClusterData], rfl⟩

theorem UpdateNode_present {s : ConcurrentClusterData Node} (hs : Inv s) {x : String} {i : Nat}
    (h : mapGet s.podNodeMap x = some i) (r : Node) :
    UpdateNode s x r
      = some { cluster := { Nodes := s.cluster.Nodes.set i r }, podNodeMap := s.podNodeMap } := by
  have hi : i < s.cluster.Nodes.length := hs.bound _ (mem_of_mapGet h)
  simp [UpdateNode, h, hi]

theorem UpdateNode_absent (s : ConcurrentClusterData Node) {x : String}
    (h : mapGet s.podNodeMap x = none) (r : Node) :
    UpdateNode s x r
      = some { cluster := { Nodes := s.cluster.Nodes ++ [r] },
               podNodeMap := s.podNodeMap ++ [(x, s.cluster.Nodes.length)] } := by
  simp [UpdateNode, h, mapSet_of_absent _ _ _ h]

theorem RemoveNode_present {s : ConcurrentClusterData Node} (hs : Inv s) {x : String} {i : Nat}
    (h : mapGet s.podNodeMap x = some i) :
    RemoveNode s x
      = some { cluster := { Nodes := s.cluster.Nodes.eraseIdx i },
               podNodeMap := (mapDelete s.podNodeMap x).map (shift i) } := by
  have hi : i < s.cluster.Nodes.length := hs.bound _ (mem_of_mapGet h)
  have hi' : i + 1 ≤ s.cluster.Nodes.length := hi
  simp only [RemoveNode, h, hi', if_true]
  rw [reindex_eq_map _ _ (mapDelete_nodup x hs.keys_nodup), List.eraseIdx_eq_take_drop_succ]

theorem RemoveNode_absent (s : ConcurrentClusterData Node) {x : String}
    (h : mapGet s.podNodeMap x = none) : RemoveNode s x = some s := by
  simp [RemoveNode, h]

theorem inv_update_present {s : ConcurrentClusterData Node} (hs : Inv s) (i : Nat) (r : Node) :
    Inv ({ cluster := { Nodes := s.cluster.Nodes.set i r }, podNodeMap := s.podNodeMap }
      : ConcurrentClusterData Node) :=
  ⟨hs.keys_nodup, hs.vals_nodup, by simpa using hs.bound, by simpa using hs.card⟩

theorem inv_update_absent {s : ConcurrentClusterData Node} (hs : Inv s) {x : String}
    (h : mapGet s.podNodeMap x = none) (r : Node) :
    Inv ({ cluster := { Nodes := s.cluster.Nodes ++ [r] },
           podNodeMap := s.podNodeMap ++ [(x, s.cluster.Nodes.length)] }
      : ConcurrentClusterData Node) := by
  have hx := (mapGet_eq_none_iff _ _).mp h
  refine ⟨?_, ?_, ?_, ?_⟩
  · simp only [List.map_append, List.map_cons, List.map_nil]
    rw [List.nodup_append]
    refine ⟨hs.keys_nodup, by simp, ?_⟩
    intro a ha hb
    simp at hb; subst hb; exact hx ha
  · simp only [List.map_append, List.map_cons, List.map_nil]
    rw [List.nodup_append]
    refine ⟨hs.vals_nodup, by simp, ?_⟩
    intro a ha hb
    simp only [List.mem_singleton] at hb
    obtain ⟨e, he, rfl⟩ := List.mem_map.mp ha
    have := hs.bound e he
    omega
  · intro e he
    simp only [List.mem_append, List.mem_singleton] at he
    simp only [List.length_append, List.length_singleton]
    rcases he with he | he
    · have := hs.bound e he; omega
    · subst he; simp
  · simp [hs.card]

/-- Two entries on the same index are the same entry. -/
theorem key_eq_of_index_eq {s : ConcurrentClusterData Node} (hs : Inv s) {e e' : String × Nat}
    (he : e ∈ s.podNodeMap) (he' : e' ∈ s.podNodeMap) (h : e.2 = e'.2) : e = e' :=
  List.inj_on_of_nodup_map hs.vals_nodup he he' h

theorem inv_remove_present {s : ConcurrentClusterData Node} (hs : Inv s) {x : String} {i : Nat}
    (h : mapGet s.podNodeMap x = some i) :
    Inv ({ cluster := { Nodes := s.cluster.Nodes.eraseIdx i },
           podNodeMap := (mapDelete s.podNodeMap x).map (shift i) }
      : ConcurrentClusterData Node) := by
  have hxi := mem_of_mapGet h
  have hi : i < s.cluster.Nodes.length := hs.bound _ hxi
  have hne : ∀ e ∈ mapDelete s.podNodeMap x, e.2 ≠ i := by
    intro e he hei
    obtain ⟨hem, hk⟩ := mem_mapDelete.mp he
    have := key_eq_of_index_eq hs hem hxi hei
    exact hk (by rw [this])
  refine ⟨?_, ?_, ?_, ?_⟩
  · simp only [map_fst_shift]
    exact mapDelete_nodup x hs.keys_nodup
  · simp only [List.map_map]
    have hsub : ((mapDelete s.podNodeMap x).map Prod.snd).Nodup :=
      hs.vals_nodup.sublist ((List.filter_sublist _).map _)
    have hd : (mapDelete s.podNodeMap x).Nodup := List.Nodup.of_map _ hsub
    refine List.Nodup.map_on ?_ hd
    intro a ha b hb hab
    simp only [Function.comp, shift_snd] at hab
    have ha' := hne a ha
    have hb' := hne b hb
    have hab' : a.2 = b.2 := by
      split at hab <;> split at hab <;> omega
    exact key_eq_of_index_eq hs (mem_mapDelete.mp ha).1 (mem_mapDelete.mp hb).1 hab'
  · intro e he
    obtain ⟨e0, he0, rfl⟩ := List.mem_map.mp he
    have h1 := hne e0 he0
    have h2 := hs.bound e0 (mem_mapDelete.mp he0).1
    simp only [shift_snd, List.length_eraseIdx, hi, if_true]
    split <;> omega
  · have := mapDelete_length hs.keys_nodup h
    have hc := hs.card
    simp only [List.length_map, List.length_eraseIdx, hi, if_true]
    omega

/-- `UpdateNode` never panics on a store that satisfies the invariant, and
keeps the invariant. -/
theorem UpdateNode_inv {s : ConcurrentClusterData Node} (hs : Inv s) (x : String) (r : Node) :
    ∃ s', UpdateNode s x r = some s' ∧ Inv s' := by
  cases h : mapGet s.podNodeMap x with
  | none => exact ⟨_, UpdateNode_absent s h r, inv_update_absent hs h r⟩
  | some i => exact ⟨_, UpdateNode_present hs h r, inv_update_present hs i r⟩

/-- `RemoveNode` never panics on a store that satisfies the invariant, and
keeps the invariant. -/
theorem RemoveNode_inv {s : ConcurrentClusterData Node} (hs : Inv s) (x : String) :
    ∃ s', RemoveNode s x = some s' ∧ Inv s' := by
  cases h : mapGet s.podNodeMap x with
  | none => exact ⟨_, RemoveNode_absent s h, hs⟩
  | some i => exact ⟨_, RemoveNode_present hs h, inv_remove_present hs h⟩

theorem run_inv (ops : List (Op Node)) {s : ConcurrentClusterData Node} (hs : Inv s) :
    ∃ s', run ops s = some s' ∧ Inv s' := by
  induction ops generalizing s with
  | nil => exact ⟨s, rfl, hs⟩
  | cons op ops ih =>
    have h1 : ∃ s1, applyOp s op = some s1 ∧ Inv s1 := by
      cases op with
      | update x r => exact UpdateNode_inv hs x r
      | remove x => exact RemoveNode_inv hs x
    obtain ⟨s1, e1, i1⟩ := h1
    obtain ⟨s2, e2, i2⟩ := ih i1
    exact ⟨s2, by simp [run, e1, e2], i2⟩

theorem Reachable.inv {s : ConcurrentClusterData Node} (h : Reachable s) : Inv s := by
  obtain ⟨ops, hops⟩ := h
  obtain ⟨s', e, i⟩ := run_inv ops (@inv_new Node)
  rw [hops] at e
  cases e
  exact i

/-- Every index below the slice length is held by some pod UID. -/
theorem Inv.index_covered {s : ConcurrentClusterData Node} (hs : Inv s) {j : Nat}
    (hj : j < s.cluster.Nodes.length) : ∃ k, mapGet s.podNodeMap k = some j := by
  have hsub : s.podNodeMap.map Prod.snd ⊆ List.range s.cluster.Nodes.length := by
    intro v hv
    obtain ⟨e, he, rfl⟩ := List.mem_map.mp hv
    exact List.mem_range.mpr (hs.bound e he)
  have hperm := (List.subperm_of_subset hs.vals_nodup hsub).perm_of_length_le
    (by simp [hs.card])
  have hmem : j ∈ s.podNodeMap.map Prod.snd :=
    hperm.mem_iff.mpr (List.mem_range.mpr hj)
  obtain ⟨e, he, rfl⟩ := List.mem_map.mp hmem
  exact ⟨e.1, mapGet_of_mem hs.keys_nodup he⟩

/-! ## The order of the re-indexing loop does not matter

Go leaves the iteration order of `range` over a map open. Whatever the order
in which the loop of `RemoveNode` visits the entries, the map it leaves is the
same. -/

theorem mapSet_eq_map {m : PodNodeMap} {k : String} (h : k ∈ m.map Prod.fst)
    (hn : (m.map Prod.fst).Nodup) (w : Nat) :
    mapSet m k w = m.map (fun e => if e.1 = k then (k, w) else e) := by
  induction m with
  | nil => simp at h
  | cons e rest ih =>
    obtain ⟨k', v⟩ := e
    simp only [List.map_cons, List.nodup_cons] at hn
    by_cases hk : k' = k
    · subst hk
      have hrest : rest.map (fun e => if e.1 = k' then (k', w) else e) = rest := by
        conv_rhs => rw [← List.map_id rest]
        apply List.map_congr_left
        intro e he
        have : e.1 ≠ k' := fun h2 => hn.1 (h2 ▸ List.mem_map.mpr ⟨e, he, rfl⟩)
        simp [this]
      simp [mapSet, hrest]
    · have hmem : k ∈ rest.map Prod.fst := by
        simp only [List.map_cons, List.mem_cons] at h
        rcases h with h | h
        · exact absurd h.symm hk
        · exact h
      simp [mapSet, hk, ih hmem hn.2]

theorem reindex_any_order_aux (i : Nat) (es acc : PodNodeMap)
    (hacc : (acc.map Prod.fst).Nodup) (hes : (es.map Prod.fst).Nodup)
    (hsub : ∀ e ∈ es, e ∈ acc) :
    reindex i es acc = acc.map (fun e => if e ∈ es then shift i e else e) := by
  induction es generalizing acc with
  | nil => simp [reindex]
  | cons e0 rest ih =>
    obtain ⟨k, v⟩ := e0
    simp only [List.map_cons, List.nodup_cons] at hes
    have hkv : (k, v) ∈ acc := hsub _ (by simp)
    have hkey : ∀ e ∈ acc, e.1 = k → e = (k, v) := by
      intro e he hek
      have h1 := mapGet_of_mem hacc he
      have h2 := mapGet_of_mem hacc hkv
      rw [hek] at h1
      rw [h1] at h2
      cases h2
      exact Prod.ext hek rfl
    -- the map after the visit of `(k, v)`
    have hstep : (if v > i then mapSet acc k (v - 1) else acc)
        = acc.map (fun e => if e = (k, v) then shift i e else e) := by
      by_cases hv : v > i
      · rw [if_pos hv, mapSet_eq_map (List.mem_map.mpr ⟨_, hkv, rfl⟩) hacc]
        apply List.map_congr_left
        intro e he
        by_cases hek : e.1 = k
        · have := hkey e he hek
          subst this
          simp [shift, hv]
        · have : e ≠ (k, v) := fun h2 => hek (by rw [h2])
          simp [hek, this]
      · rw [if_neg hv]
        conv_lhs => rw [← List.map_id acc]
        apply List.map_congr_left
        intro e _
        by_cases hek : e = (k, v)
        · subst hek; simp [shift, hv]
        · simp [hek]
    have hfst : (acc.map (fun e => if e = (k, v) then shift i e else e)).map Prod.fst
        = acc.map Prod.fst := by
      rw [List.map_map]
      apply List.map_congr_left
      intro e _
      by_cases hek : e = (k, v) <;> simp [hek, shift_fst]
    have hsub' : ∀ e ∈ rest, e ∈ acc.map (fun e => if e = (k, v) then shift i e else e) := by
      intro e he
      have hne : e ≠ (k, v) := by
        intro h2
        exact hes.1 (List.mem_map.mpr ⟨e, he, by rw [h2]⟩)
      exact List.mem_map.mpr ⟨e, hsub e (List.mem_cons_of_mem _ he), by simp [hne]⟩
    simp only [reindex]
    rw [hstep, ih _ (by rw [hfst]; exact hacc) hes.2 hsub', List.map_map]
    apply List.map_congr_left
    intro e _
    by_cases hek : e = (k, v)
    · subst hek
      have hnot : shift i (k, v) ∉ rest := by
        intro h2
        exact hes.1 (List.mem_map.mpr ⟨_, h2, shift_fst i (k, v)⟩)
      simp [hnot]
    · have hek' : ¬ (k, v) = e := fun h2 => hek h2.symm
      simp [hek, List.mem_cons]

/-- Visiting the entries in any order `es` (a permutation of the entries of
the map) gives the map that rewrites every entry once. -/
theorem reindex_any_order (i : Nat) (m es : PodNodeMap) (hn : (m.map Prod.fst).Nodup)
    (hp : es.Perm m) : reindex i es m = m.map (shift i) := by
  have hes : (es.map Prod.fst).Nodup := (hp.map Prod.fst).nodup_iff.mpr hn
  rw [reindex_any_order_aux i es m hn hes (fun e he => hp.mem_iff.mp he)]
  apply List.map_congr_left
  intro e he
  simp [hp.mem_iff.mpr he]

theorem resolve_isSome_of_present {s : ConcurrentClusterData Node} (hs : Inv s) {y : String}
    {j : Nat} (h : mapGet s.podNodeMap y = some j) :
    ∃ r, s.cluster.Nodes[j]? = some r ∧ resolve s y = some r := by
  have hj : j < s.cluster.Nodes.length := hs.bound _ (mem_of_mapGet h)
  refine ⟨s.cluster.Nodes[j], List.getElem?_eq_getElem hj, ?_⟩
  simp [resolve, h, List.getElem?_eq_getElem hj]

/-- After the removal of a present key, every other key resolves as before. -/
theorem resolve_remove_other {s : ConcurrentClusterData Node} (hs : Inv s) {x : String} {i : Nat}
    (hx : mapGet s.podNodeMap x = some i) {y : String} (hy : y ≠ x) :
    resolve ({ cluster := { Nodes := s.cluster.Nodes.eraseIdx i },
               podNodeMap := (mapDelete s.podNodeMap x).map (shift i) }
      : ConcurrentClusterData Node) y = resolve s y := by
  simp only [resolve, mapGet_map_shift, mapGet_mapDelete_ne _ hy]
  cases hj : mapGet s.podNodeMap y with
  | none => rfl
  | some j =>
    have hji : j ≠ i := by
      intro hji
      have := key_eq_of_index_eq hs (mem_of_mapGet hj) (mem_of_mapGet hx) hji
      exact hy (congrArg Prod.fst this)
    simp only [Option.map_some', Option.some_bind]
    by_cases hgt : j > i
    · rw [if_pos hgt, List.getElem?_eraseIdx_of_ge _ _ _ (by omega)]
      congr 1; omega
    · rw [if_neg hgt, List.getElem?_eraseIdx_of_lt _ _ _ (by omega)]

/-! ## Claims about the sequential store -/

/-- C1: after any finite sequence of `UpdateNode` / `RemoveNode` calls on the
store built by `NewConcurrentClusterData` (equally `GetInstance`), no call has
panicked on a slice access, the map holds one entry per pod UID, is injective,
holds only indices below `len(cluster.Nodes)`, holds every such index, and has
as many UIDs as there are records. -/
theorem store_invariant (ops : List (Op Node)) :
    ∃ s : ConcurrentClusterData Node,
      run ops NewConcurrentClusterData = some s ∧
      run ops GetInstance = some s ∧
      (s.podNodeMap.map Prod.fst).Nodup ∧
      (∀ k₁ k₂ i, mapGet s.podNodeMap k₁ = some i → mapGet s.podNodeMap k₂ = some i → k₁ = k₂) ∧
      (∀ k i, mapGet s.podNodeMap k = some i → i < s.cluster.Nodes.length) ∧
      (∀ j, j < s.cluster.Nodes.length → ∃ k, mapGet s.podNodeMap k = some j) ∧
      (s.podNodeMap.map Prod.fst).length = s.cluster.Nodes.length := by
  obtain ⟨s, hrun, hs⟩ := run_inv ops (@inv_new Node)
  refine ⟨s, hrun, hrun, hs.keys_nodup, ?_, ?_, ?_, ?_⟩
  · intro k₁ k₂ i h₁ h₂
    exact congrArg Prod.fst (key_eq_of_index_eq hs (mem_of_mapGet h₁) (mem_of_mapGet h₂) rfl)
  · intro k i h
    exact hs.bound _ (mem_of_mapGet h)
  · intro j hj
    exact hs.index_covered hj
  · simpa using hs.card

/-- C2: on a reachable store that holds pod UID `x` at index `i`, `RemoveNode x`
returns a store without the key `x`, whose `Nodes` is the old sequence with the
element at `i` (the record of `x`) erased and the others in their old order,
and in which every other UID resolves to the record it resolved to before. -/
theorem RemoveNode_evicts (s : ConcurrentClusterData Node) (hs : Reachable s)
    (x : String) (i : Nat) (hx : mapGet s.podNodeMap x = some i) :
    ∃ s', RemoveNode s x = some s' ∧
      mapGet s'.podNodeMap x = none ∧
      x ∉ s'.podNodeMap.map Prod.fst ∧
      resolve s x = s.cluster.Nodes[i]? ∧
      s'.cluster.Nodes = s.cluster.Nodes.eraseIdx i ∧
      s'.cluster.Nodes = s.cluster.Nodes.take i ++ s.cluster.Nodes.drop (i + 1) ∧
      (∀ y, y ≠ x → resolve s' y = resolve s y) ∧
      (∀ y j, y ≠ x → mapGet s.podNodeMap y = some j →
        ∃ r, s.cluster.Nodes[j]? = some r ∧ resolve s' y = some r) := by
  have hinv := hs.inv
  have habs : mapGet ((mapDelete s.podNodeMap x).map (shift i)) x = none := by
    rw [mapGet_map_shift, mapGet_mapDelete_self]; rfl
  refine ⟨_, RemoveNode_present hinv hx, habs, (mapGet_eq_none_iff _ _).mp habs, ?_, rfl,
    List.eraseIdx_eq_take_drop_succ _ _, ?_, ?_⟩
  · simp [resolve, hx]
  · intro y hy
    exact resolve_remove_other hinv hx hy
  · intro y j hy hj
    obtain ⟨r, hr, hres⟩ := resolve_isSome_of_present hinv hj
    exact ⟨r, hr, by rw [resolve_remove_other hinv hx hy, hres]⟩

/-- Witness for C2: the store after upserting `a`, `b`, `c`, with `a` removed. -/
theorem RemoveNode_evicts_witness :
    ∃ s', RemoveNode (⟨⟨[10, 20, 30]⟩, [("a", 0), ("b", 1), ("c", 2)]⟩ : ConcurrentClusterData Nat) "a"
        = some s' ∧
      mapGet s'.podNodeMap "a" = none ∧
      "a" ∉ s'.podNodeMap.map Prod.fst ∧
      resolve (⟨⟨[10, 20, 30]⟩, [("a", 0), ("b", 1), ("c", 2)]⟩ : ConcurrentClusterData Nat) "a"
        = [10, 20, 30][0]? ∧
      s'.cluster.Nodes = [10, 20, 30].eraseIdx 0 ∧
      s'.cluster.Nodes = [10, 20, 30].take 0 ++ [10, 20, 30].drop (0 + 1) ∧
      (∀ y, y ≠ "a" → resolve s' y
        = resolve (⟨⟨[10, 20, 30]⟩, [("a", 0), ("b", 1), ("c", 2)]⟩ : ConcurrentClusterData Nat) y) ∧
      (∀ y j, y ≠ "a" → mapGet [("a", 0), ("b", 1), ("c", 2)] y = some j →
        ∃ r, [10, 20, 30][j]? = some r ∧ resolve s' y = some r) :=
  RemoveNode_evicts ⟨⟨[10, 20, 30]⟩, [("a", 0), ("b", 1), ("c", 2)]⟩
    ⟨[.update "a" 10, .update "b" 20, .update "c" 30], by decide⟩ "a" 0 (by decide)

/-- C3: on a reachable store, `UpdateNode x r1` followed by `UpdateNode x r2`
leaves `r2` as the record `x` resolves to, one map entry for `x`, and the very
store that `UpdateNode x r2` alone produces. -/
theorem UpdateNode_replace (s : ConcurrentClusterData Node) (hs : Reachable s)
    (x : String) (r1 r2 : Node) :
    ∃ s1 s2, UpdateNode s x r1 = some s1 ∧ UpdateNode s1 x r2 = some s2 ∧
      resolve s2 x = some r2 ∧
      (s2.podNodeMap.map Prod.fst).count x = 1 ∧
      UpdateNode s x r2 = some s2 := by
  have hinv := hs.inv
  cases h : mapGet s.podNodeMap x with
  | some i =>
    have hi : i < s.cluster.Nodes.length := hinv.bound _ (mem_of_mapGet h)
    have hinv1 := inv_update_present hinv i r1
    refine ⟨_, _, UpdateNode_present hinv h r1, UpdateNode_present hinv1 h r2, ?_, ?_, ?_⟩
    · simp [resolve, h, hi]
    · exact List.count_eq_one_of_mem hinv.keys_nodup
        (List.mem_map.mpr ⟨_, mem_of_mapGet h, rfl⟩)
    · rw [UpdateNode_present hinv h r2]; simp
  | none =>
    have hinv1 := inv_update_absent hinv h r1
    have hget : mapGet (s.podNodeMap ++ [(x, s.cluster.Nodes.length)]) x
        = some s.cluster.Nodes.length :=
      mapGet_of_mem hinv1.keys_nodup (by simp)
    refine ⟨_, _, UpdateNode_absent s h r1, UpdateNode_present hinv1 hget r2, ?_, ?_, ?_⟩
    · simp [resolve, hget]
    · exact List.count_eq_one_of_mem hinv1.keys_nodup (by simp)
    · rw [UpdateNode_absent s h r2]; simp

/-- Witness for C3: replacing the record of `a` in a two-record store. -/
theorem UpdateNode_replace_witness :
    ∃ s1 s2,
      UpdateNode (⟨⟨[10, 20]⟩, [("a", 0), ("b", 1)]⟩ : ConcurrentClusterData Nat) "a" 11 = some s1 ∧
      UpdateNode s1 "a" 12 = some s2 ∧
      resolve s2 "a" = some 12 ∧
      (s2.podNodeMap.map Prod.fst).count "a" = 1 ∧
      UpdateNode (⟨⟨[10, 20]⟩, [("a", 0), ("b", 1)]⟩ : ConcurrentClusterData Nat) "a" 12 = some s2 :=
  UpdateNode_replace ⟨⟨[10, 20]⟩, [("a", 0), ("b", 1)]⟩
    ⟨[.update "a" 10, .update "b" 20], by decide⟩ "a" 11 12

/-- C4: on a reachable store `RemoveNode x` returns a store (it does not
panic), a second `RemoveNode x` returns that same store, and when `x` is not a
key the first call already returns the store unchanged. -/
theorem RemoveNode_idempotent (s : ConcurrentClusterData Node) (hs : Reachable s) (x : String) :
    ∃ s1, RemoveNode s x = some s1 ∧ RemoveNode s1 x = some s1 ∧
      (mapGet s.podNodeMap x = none → s1 = s) := by
  have hinv := hs.inv
  cases h : mapGet s.podNodeMap x with
  | none => exact ⟨s, RemoveNode_absent s h, RemoveNode_absent s h, fun _ => rfl⟩
  | some i =>
    refine ⟨_, RemoveNode_present hinv h, RemoveNode_absent _ ?_, fun h' => by simp at h'⟩
    show mapGet ((mapDelete s.podNodeMap x).map (shift i)) x = none
    rw [mapGet_map_shift, mapGet_mapDelete_self]; rfl

/-- Witness for C4: removing `b` twice from a three-record store. -/
theorem RemoveNode_idempotent_witness :
    ∃ s1, RemoveNode (⟨⟨[10, 20, 30]⟩, [("a", 0), ("b", 1), ("c", 2)]⟩ : ConcurrentClusterData Nat) "b"
        = some s1 ∧ RemoveNode s1 "b" = some s1 ∧
      (mapGet [("a", 0), ("b", 1), ("c", 2)] "b" = none →
        s1 = (⟨⟨[10, 20, 30]⟩, [("a", 0), ("b", 1), ("c", 2)]⟩ : ConcurrentClusterData Nat)) :=
  RemoveNode_idempotent ⟨⟨[10, 20, 30]⟩, [("a", 0), ("b", 1), ("c", 2)]⟩
    ⟨[.update "a" 10, .update "b" 20, .update "c" 30], by decide⟩ "b"

/-! ## The connector, the removal race and the fan-in -/

theorem mapGet_append_singleton_ne (m : PodNodeMap) {x y : String} (v : Nat) (h : y ≠ x) :
    mapGet (m ++ [(x, v)]) y = mapGet m y := by
  induction m with
  | nil =>
    have hxy : ¬ x = y := fun h2 => h h2.symm
    simp [mapGet, hxy]
  | cons e rest ih =>
    obtain ⟨k', w⟩ := e
    by_cases hy : k' = y
    · simp [mapGet, hy]
    · simp [mapGet, hy, ih]

/-- An upsert of `x` leaves the record of every other key as it was. -/
theorem resolve_update_other {s s' : ConcurrentClusterData Node} (hs : Inv s) {x : String}
    {r : Node} (h : UpdateNode s x r = some s') {y : String} (hy : y ≠ x) :
    resolve s' y = resolve s y := by
  cases hx : mapGet s.podNodeMap x with
  | some i =>
    rw [UpdateNode_present hs hx r] at h
    cases h
    simp only [resolve]
    cases hj : mapGet s.podNodeMap y with
    | none => rfl
    | some j =>
      have hji : i ≠ j := by
        intro hji
        have := key_eq_of_index_eq hs (mem_of_mapGet hj) (mem_of_mapGet hx) hji.symm
        exact hy (congrArg Prod.fst this)
      simp [List.getElem?_set_ne hji]
  | none =>
    rw [UpdateNode_absent s hx r] at h
    cases h
    simp only [resolve, mapGet_append_singleton_ne _ _ hy]
    cases hj : mapGet s.podNodeMap y with
    | none => rfl
    | some j =>
      have hlt : j < s.cluster.Nodes.length := hs.bound _ (mem_of_mapGet hj)
      simp [List.getElem?_append_left hlt]

/-- After an upsert of `x` with `r`, `x` resolves to `r`. -/
theorem resolve_update_self {s s' : ConcurrentClusterData Node} (hs : Inv s) {x : String}
    {r : Node} (h : UpdateNode s x r = some s') : resolve s' x = some r := by
  cases hx : mapGet s.podNodeMap x with
  | some i =>
    have hi : i < s.cluster.Nodes.length := hs.bound _ (mem_of_mapGet hx)
    rw [UpdateNode_present hs hx r] at h
    cases h
    simp [resolve, hx, hi]
  | none =>
    have hinv1 := inv_update_absent hs hx r
    rw [UpdateNode_absent s hx r] at h
    cases h
    have hget : mapGet (s.podNodeMap ++ [(x, s.cluster.Nodes.length)]) x
        = some s.cluster.Nodes.length :=
      mapGet_of_mem hinv1.keys_nodup (by simp)
    simp [resolve, hget]

/-- After a removal of `x`, `x` is not a key and every other key resolves as
before. -/
theorem RemoveNode_spec {s : ConcurrentClusterData Node} (hs : Inv s) (x : String) :
    ∃ s', RemoveNode s x = some s' ∧ Inv s' ∧ mapGet s'.podNodeMap x = none ∧
      ∀ y, y ≠ x → resolve s' y = resolve s y := by
  cases h : mapGet s.podNodeMap x with
  | none => exact ⟨s, RemoveNode_absent s h, hs, h, fun _ _ => rfl⟩
  | some i =>
    refine ⟨_, RemoveNode_present hs h, inv_remove_present hs h, ?_,
      fun y hy => resolve_remove_other hs h hy⟩
    show mapGet ((mapDelete s.podNodeMap x).map (shift i)) x = none
    rw [mapGet_map_shift, mapGet_mapDelete_self]; rfl

theorem recvLoop_spec (x : String) (msgs : List Node) {s : ConcurrentClusterData Node}
    (hs : Inv s) :
    ∃ stores, recvLoop x msgs s = some stores ∧ stores.length = msgs.length + 1 ∧
      (∀ (i : Nat) (m : Node), msgs[i]? = some m → ∃ si, stores[i]? = some si ∧ resolve si x = some m) ∧
      ∃ sEnd, stores[msgs.length]? = some sEnd ∧ mapGet sEnd.podNodeMap x = none ∧
        ∀ y, y ≠ x → resolve sEnd y = resolve s y := by
  induction msgs generalizing s with
  | nil =>
    obtain ⟨s', h1, _, h3, h4⟩ := RemoveNode_spec hs x
    exact ⟨[s'], by simp [recvLoop, h1], rfl, by simp, s', rfl, h3, h4⟩
  | cons m rest ih =>
    obtain ⟨s1, h1, inv1⟩ := UpdateNode_inv hs x m
    obtain ⟨stores, ht, hlen, hmsg, sEnd, hend, habs, hother⟩ := ih inv1
    refine ⟨s1 :: stores, by simp [recvLoop, h1, ht], by simp [hlen], ?_, sEnd, ?_, habs, ?_⟩
    · intro i m' hi
      cases i with
      | zero =>
        simp only [List.getElem?_cons_zero, Option.some.injEq] at hi
        subst hi
        exact ⟨s1, List.getElem?_cons_zero, resolve_update_self hs h1⟩
      | succ i =>
        simp only [List.getElem?_cons_succ] at hi ⊢
        exact hmsg i m' hi
    · simpa using hend
    · intro y hy
      rw [hother y hy, resolve_update_other hs h1 hy]

/-- C6: on a reachable store, the receive loop for pod UID `x` over a stream
that yields `msgs` and then fails runs to its end; the store after the call
for the i-th message resolves `x` to that message; the store after the final
`RemoveNode` does not hold `x`; and every other UID resolves in it to what it
resolved to before the loop started. -/
theorem recvLoop_evicts_on_stream_end (s : ConcurrentClusterData Node) (hs : Reachable s)
    (x : String) (msgs : List Node) :
    ∃ stores, recvLoop x msgs s = some stores ∧ stores.length = msgs.length + 1 ∧
      (∀ (i : Nat) (m : Node), msgs[i]? = some m → ∃ si, stores[i]? = some si ∧ resolve si x = some m) ∧
      ∃ sEnd, stores[msgs.length]? = some sEnd ∧ mapGet sEnd.podNodeMap x = none ∧
        resolve sEnd x = none ∧
        ∀ y, y ≠ x → resolve sEnd y = resolve s y := by
  obtain ⟨stores, h1, h2, h3, sEnd, h4, h5, h6⟩ := recvLoop_spec x msgs hs.inv
  exact ⟨stores, h1, h2, h3, sEnd, h4, h5, by simp [resolve, h5], h6⟩

/-- Witness for C6: messages `11`, `12` for pod `a` on a store that holds `b`. -/
theorem recvLoop_evicts_on_stream_end_witness :
    ∃ stores, recvLoop "a" [11, 12] (⟨⟨[20]⟩, [("b", 0)]⟩ : ConcurrentClusterData Nat) = some stores ∧
      stores.length = [11, 12].length + 1 ∧
      (∀ (i : Nat) (m : Nat), [11, 12][i]? = some m → ∃ si, stores[i]? = some si ∧ resolve si "a" = some m) ∧
      ∃ sEnd, stores[[11, 12].length]? = some sEnd ∧ mapGet sEnd.podNodeMap "a" = none ∧
        resolve sEnd "a" = none ∧
        ∀ y, y ≠ "a" → resolve sEnd y
          = resolve (⟨⟨[20]⟩, [("b", 0)]⟩ : ConcurrentClusterData Nat) y :=
  recvLoop_evicts_on_stream_end ⟨⟨[20]⟩, [("b", 0)]⟩ ⟨[.update "b" 20], by decide⟩ "a" [11, 12]

/-- C7, as stated, fails: on the empty store `RemoveNode "x"` followed by
`UpdateNode "x" 7` leaves `x` present at index 0 with record 7. -/
theorem removal_race_counterexample :
    Reachable (NewConcurrentClusterData : ConcurrentClusterData Nat) ∧
    (RemoveNode (NewConcurrentClusterData : ConcurrentClusterData Nat) "x").bind
        (fun s => UpdateNode s "x" 7) = some ⟨⟨[7]⟩, [("x", 0)]⟩ ∧
    mapGet (⟨⟨[7]⟩, [("x", 0)]⟩ : ConcurrentClusterData Nat).podNodeMap "x" = some 0 ∧
    resolve (⟨⟨[7]⟩, [("x", 0)]⟩ : ConcurrentClusterData Nat) "x" = some 7 :=
  ⟨⟨[], rfl⟩, by decide, by decide, by decide⟩

/-- C7, amended: on a reachable store, `UpdateNode x r` followed by
`RemoveNode x` leaves `x` absent, and `RemoveNode x` followed by
`UpdateNode x r` leaves `x` present with record `r`: the call applied last
decides. -/
theorem removal_race_last_call_wins (s : ConcurrentClusterData Node) (hs : Reachable s)
    (x : String) (r : Node) :
    (∃ s1 s2, UpdateNode s x r = some s1 ∧ RemoveNode s1 x = some s2 ∧
      mapGet s2.podNodeMap x = none ∧ resolve s2 x = none) ∧
    (∃ s1 s2, RemoveNode s x = some s1 ∧ UpdateNode s1 x r = some s2 ∧
      (mapGet s2.podNodeMap x).isSome ∧ resolve s2 x = some r) := by
  have hinv := hs.inv
  constructor
  · obtain ⟨s1, h1, inv1⟩ := UpdateNode_inv hinv x r
    obtain ⟨s2, h2, _, h3, _⟩ := RemoveNode_spec inv1 x
    exact ⟨s1, s2, h1, h2, h3, by simp [resolve, h3]⟩
  · obtain ⟨s1, h1, inv1, _, _⟩ := RemoveNode_spec hinv x
    obtain ⟨s2, h2, _⟩ := UpdateNode_inv inv1 x r
    have h3 := resolve_update_self inv1 h2
    refine ⟨s1, s2, h1, h2, ?_, h3⟩
    cases hg : mapGet s2.podNodeMap x with
    | none => simp [resolve, hg] at h3
    | some _ => rfl

/-- Witness for the amended C7 on a one-record store. -/
theorem removal_race_last_call_wins_witness :
    (∃ s1 s2, UpdateNode (⟨⟨[10]⟩, [("x", 0)]⟩ : ConcurrentClusterData Nat) "x" 7 = some s1 ∧
      RemoveNode s1 "x" = some s2 ∧
      mapGet s2.podNodeMap "x" = none ∧ resolve s2 "x" = none) ∧
    (∃ s1 s2, RemoveNode (⟨⟨[10]⟩, [("x", 0)]⟩ : ConcurrentClusterData Nat) "x" = some s1 ∧
      UpdateNode s1 "x" 7 = some s2 ∧
      (mapGet s2.podNodeMap "x").isSome ∧ resolve s2 "x" = some 7) :=
  removal_race_last_call_wins ⟨⟨[10]⟩, [("x", 0)]⟩ ⟨[.update "x" 10], by decide⟩ "x" 7

/-! ## The snapshot of the sequential store -/

theorem copyLoop_eq (nodes : List Node) (i : Nat) (copied : List Node)
    (h : copied.length = i + nodes.length) :
    copyLoop nodes i copied = some (copied.take i ++ nodes) := by
  induction nodes generalizing i copied with
  | nil =>
    simp only [List.length_nil, Nat.add_zero] at h
    simp [copyLoop, ← h]
  | cons node rest ih =>
    simp only [List.length_cons] at h
    have hi : i < copied.length := by omega
    simp only [copyLoop, hi, if_true]
    rw [ih (i + 1) (copied.set i node) (by simp; omega)]
    congr 1
    rw [List.take_succ, List.set_take, List.set_eq_of_length_le (by simp),
      List.getElem?_set_eq_of_lt _ hi]
    simp

/-- Run without interference, `deepCopy` returns the records of its argument. -/
theorem deepCopy_eq [Inhabited Node] (c : Cluster Node) :
    deepCopy (some c) = some (some { Nodes := c.Nodes }) := by
  simp [deepCopy, makeNodes, copyLoop_eq c.Nodes 0 (List.replicate c.Nodes.length default)
    (by simp)]

theorem GetCurrentClusterState_eq [Inhabited Node] (s : ConcurrentClusterData Node) :
    GetCurrentClusterState s = some (some { Nodes := s.cluster.Nodes }) := by
  simp [GetCurrentClusterState, deepCopy_eq]

/-- Upserts of keys that the store does not hold, pairwise distinct, append
their records in call order and make every key resolve to its record. -/
theorem run_fresh_updates (calls : List (String × Node)) {s : ConcurrentClusterData Node}
    (hs : Inv s) (hn : (calls.map Prod.fst).Nodup)
    (hfresh : ∀ c ∈ calls, mapGet s.podNodeMap c.1 = none) :
    ∃ s', run (calls.map (fun c => Op.update c.1 c.2)) s = some s' ∧ Inv s' ∧
      s'.cluster.Nodes = s.cluster.Nodes ++ calls.map Prod.snd ∧
      (∀ c ∈ calls, resolve s' c.1 = some c.2) ∧
      (∀ y, y ∉ calls.map Prod.fst → resolve s' y = resolve s y) := by
  induction calls generalizing s with
  | nil => exact ⟨s, rfl, hs, by simp, by simp, fun _ _ => rfl⟩
  | cons c rest ih =>
    obtain ⟨x, r⟩ := c
    simp only [List.map_cons, List.nodup_cons] at hn
    have hx : mapGet s.podNodeMap x = none := hfresh (x, r) (by simp)
    have h1 := UpdateNode_absent s hx r
    have inv1 := inv_update_absent hs hx r
    have hfresh1 : ∀ c ∈ rest, mapGet (s.podNodeMap ++ [(x, s.cluster.Nodes.length)]) c.1 = none := by
      intro c hc
      have hne : c.1 ≠ x := fun h => hn.1 (h ▸ List.mem_map.mpr ⟨c, hc, rfl⟩)
      rw [mapGet_append_singleton_ne _ _ hne]
      exact hfresh c (List.mem_cons_of_mem _ hc)
    obtain ⟨s', hrun, inv', hnodes, hres, hother⟩ := ih inv1 hn.2 hfresh1
    refine ⟨s', by simp [run, applyOp, h1, hrun], inv', by simp [hnodes], ?_, ?_⟩
    · intro c hc
      rcases List.mem_cons.mp hc with rfl | hc
      · rw [hother x hn.1]
        exact resolve_update_self hs h1
      · exact hres c hc
    · intro y hy
      simp only [List.map_cons, List.mem_cons, not_or] at hy
      rw [hother y hy.2]
      exact resolve_update_other hs h1 hy.1

/-- C8: for any list of `UpdateNode` calls with pairwise distinct pod UIDs,
applied to the empty store in any order `order`, the run does not panic, the
snapshot taken afterwards lists the records in the order the calls were
applied, it has as many records as there are calls, and every UID resolves to
the record it was upserted with. -/
theorem fan_in_no_lost_update [Inhabited Node] (calls order : List (String × Node))
    (hn : (calls.map Prod.fst).Nodup) (hperm : order.Perm calls) :
    ∃ s, run (order.map (fun c => Op.update c.1 c.2)) NewConcurrentClusterData = some s ∧
      GetCurrentClusterState s = some (some { Nodes := order.map Prod.snd }) ∧
      s.cluster.Nodes.length = calls.length ∧
      (∀ c ∈ calls, resolve s c.1 = some c.2) ∧
      (s.podNodeMap.map Prod.fst).Perm (calls.map Prod.fst) := by
  have hn' : (order.map Prod.fst).Nodup := (hperm.map Prod.fst).nodup_iff.mpr hn
  obtain ⟨s, hrun, inv, hnodes, hres, hother⟩ :=
    run_fresh_updates order (@inv_new Node) hn' (fun _ _ => rfl)
  have hnodes' : s.cluster.Nodes = order.map Prod.snd := by
    simpa [NewConcurrentClusterData] using hnodes
  refine ⟨s, hrun, by rw [GetCurrentClusterState_eq, hnodes'], ?_, ?_, ?_⟩
  · rw [hnodes', List.length_map, hperm.length_eq]
  · intro c hc
    exact hres c (hperm.mem_iff.mpr hc)
  · refine (List.perm_ext_iff_of_nodup inv.keys_nodup hn').mpr ?_ |>.trans (hperm.map _)
    intro y
    constructor
    · intro hy
      by_contra hcon
      have h1 := hother y hcon
      obtain ⟨e, he, rfl⟩ := List.mem_map.mp hy
      obtain ⟨r, _, hr⟩ := resolve_isSome_of_present inv (mapGet_of_mem inv.keys_nodup he)
      rw [hr] at h1
      simp [resolve, NewConcurrentClusterData, mapGet] at h1
    · intro hy
      obtain ⟨c, hc, rfl⟩ := List.mem_map.mp hy
      have h1 := hres c hc
      by_contra hcon
      have h2 := (mapGet_eq_none_iff _ _).mpr hcon
      simp [resolve, h2] at h1

/-- Witness for C8: three connectors, applied in the order `b`, `c`, `a`. -/
theorem fan_in_no_lost_update_witness :
    ∃ s : ConcurrentClusterData Nat,
      run ([("b", 20), ("c", 30), ("a", 10)].map (fun c => Op.update c.1 c.2))
        NewConcurrentClusterData = some s ∧
      GetCurrentClusterState s
        = some (some { Nodes := [("b", 20), ("c", 30), ("a", 10)].map Prod.snd }) ∧
      s.cluster.Nodes.length = [("a", 10), ("b", 20), ("c", 30)].length ∧
      (∀ c ∈ [("a", 10), ("b", 20), ("c", 30)], resolve s c.1 = some c.2) ∧
      (s.podNodeMap.map Prod.fst).Perm ([("a", 10), ("b", 20), ("c", 30)].map Prod.fst) :=
  fan_in_no_lost_update [("a", 10), ("b", 20), ("c", 30)] [("b", 20), ("c", 30), ("a", 10)]
    (by decide) (by decide)

/-! ## The heap store: slices and their arrays -/

namespace Mem

theorem array_set_self {h : Heap Node} {p : Nat} (hp : p < h.length) (a : List Node) :
    array (h.set p a) p = a := by
  simp [array, List.getD_eq_getElem?_getD, hp]

theorem array_set_ne {h : Heap Node} {p q : Nat} (hne : q ≠ p) (a : List Node) :
    array (h.set p a) q = array h q := by
  simp [array, List.getD_eq_getElem?_getD, List.getElem?_set_ne (Ne.symm hne)]

theorem array_append_lt {h : Heap Node} {q : Nat} (hq : q < h.length) (a : List Node) :
    array (h ++ [a]) q = array h q := by
  simp [array, List.getD_eq_getElem?_getD, List.getElem?_append_left hq]

theorem array_append_self (h : Heap Node) (a : List Node) :
    array (h ++ [a]) h.length = a := by
  simp [array, List.getD_eq_getElem?_getD]

theorem owns_refl {h : Heap Node} {s : Slice} (hwf : WF h s) : Owns h s h s :=
  ⟨hwf, Nat.le_refl _, Or.inl (Eq.refl _), fun _ _ _ => Eq.refl _⟩

theorem Owns.trans {h h1 h2 : Heap Node} {s s1 s2 : Slice}
    (a : Owns h s h1 s1) (b : Owns h1 s1 h2 s2) : Owns h s h2 s2 := by
  refine ⟨b.wf, Nat.le_trans a.mono b.mono, ?_, ?_⟩
  · rcases b.ptr with e | e
    · rcases a.ptr with e' | e'
      · exact Or.inl (e.trans e')
      · exact Or.inr (e ▸ e')
    · exact Or.inr (Nat.le_trans a.mono e)
  · intro q hq hne
    have hq1 : q < h1.length := Nat.lt_of_lt_of_le hq a.mono
    have hne1 : q ≠ s1.ptr := by
      rcases a.ptr with e' | e'
      · rw [e']; exact hne
      · omega
    rw [b.frame q hq1 hne1, a.frame q hq hne]

/-- A well-formed slice on another array is not touched. -/
theorem Owns.other {h h' : Heap Node} {s s' : Slice} (ho : Owns h s h' s') {t : Slice}
    (ht : WF h t) (hne : t.ptr ≠ s.ptr) :
    WF h' t ∧ t.ptr ≠ s'.ptr ∧ read h' t = read h t := by
  have hfr := ho.frame t.ptr ht.1 hne
  refine ⟨⟨Nat.lt_of_lt_of_le ht.1 ho.mono, by rw [hfr]; exact ht.2.1, ht.2.2⟩, ?_, ?_⟩
  · rcases ho.ptr with e | e
    · rw [e]; exact hne
    · have := ht.1; omega
  · simp [read, hfr]

theorem sliceSet_spec {h : Heap Node} {s : Slice} (hwf : WF h s) {i : Nat} (hi : i < s.len)
    (v : Node) :
    ∃ h', sliceSet h s i v = some h' ∧ Owns h s h' s ∧ read h' s = (read h s).set i v := by
  have e : sliceSet h s i v = some (h.set s.ptr ((array h s.ptr).set i v)) := by
    simp [sliceSet, hi]
  refine ⟨_, e, ⟨⟨?_, ?_, hwf.2.2⟩, ?_, Or.inl (Eq.refl _), ?_⟩, ?_⟩
  · simpa using hwf.1
  · rw [array_set_self hwf.1]; simpa using hwf.2.1
  · simp
  · intro q _ hne; exact array_set_ne hne _
  · simp [read, array_set_self hwf.1, List.set_take]

theorem sliceSet_lt {h h' : Heap Node} {s : Slice} {i : Nat} {v : Node}
    (e : sliceSet h s i v = some h') : i < s.len := by
  unfold sliceSet at e
  split at e
  · assumption
  · cases e

theorem sliceAppend_spec [Inhabited Node] (grow : Nat → Nat) {h : Heap Node} {s : Slice}
    (hwf : WF h s) (v : Node) :
    Owns h s (sliceAppend grow h s v).1 (sliceAppend grow h s v).2 ∧
      read (sliceAppend grow h s v).1 (sliceAppend grow h s v).2 = read h s ++ [v] ∧
      (sliceAppend grow h s v).2.len = s.len + 1 := by
  obtain ⟨hp, hlen, hle⟩ := hwf
  by_cases hc : s.len < s.cap
  · have hl : s.len < (array h s.ptr).length := by omega
    simp only [sliceAppend, hc, if_true]
    refine ⟨⟨⟨by simpa using hp, ?_, hc⟩, by simp, Or.inl (Eq.refl _), ?_⟩, ?_⟩
    · rw [array_set_self hp]; simpa using hlen
    · intro q _ hne; exact array_set_ne hne _
    · simp only [read, array_set_self hp]
      refine ⟨?_, trivial⟩
      rw [List.take_succ, List.set_take, List.set_eq_of_length_le (by simp),
        List.getElem?_set_eq_of_lt _ hl]
      simp
  · have hrl : (read h s).length = s.len := by simp [read]; omega
    simp only [sliceAppend, hc, if_false]
    refine ⟨⟨⟨by simp, ?_, by simp⟩, by simp, Or.inr (Nat.le_refl _), ?_⟩, ?_⟩
    · rw [array_append_self]; simp [hrl]; omega
    · intro q hq _; exact array_append_lt hq _
    · refine ⟨?_, trivial⟩
      simp only [read, array_append_self]
      exact List.take_left' (by simpa [read] using hrl)

theorem sliceRemove_spec {h : Heap Node} {s : Slice} (hwf : WF h s) {i : Nat} (hi : i < s.len) :
    ∃ h' s', sliceRemove h s i = some (h', s') ∧ Owns h s h' s' ∧
      read h' s' = (read h s).eraseIdx i := by
  obtain ⟨hp, hlen, hle⟩ := hwf
  have hi' : i + 1 ≤ s.len := hi
  have e : sliceRemove h s i = some
      (h.set s.ptr ((array h s.ptr).take i ++ ((array h s.ptr).drop (i + 1)).take (s.len - (i + 1))
        ++ (array h s.ptr).drop (s.len - 1)), { ptr := s.ptr, len := s.len - 1, cap := s.cap }) := by
    simp only [sliceRemove, hi', if_true]
  have hl1 : ((array h s.ptr).take i
      ++ ((array h s.ptr).drop (i + 1)).take (s.len - (i + 1))).length = s.len - 1 := by
    simp only [List.length_append, List.length_take, List.length_drop]; omega
  refine ⟨_, _, e, ⟨⟨by simpa using hp, ?_, ?_⟩, by simp, Or.inl (Eq.refl _), ?_⟩, ?_⟩
  · show (array (h.set s.ptr _) s.ptr).length = s.cap
    rw [array_set_self hp, List.length_append, hl1, List.length_drop]
    omega
  · show s.len - 1 ≤ s.cap
    omega
  · intro q _ hne; exact array_set_ne hne _
  · show List.take (s.len - 1) (array (h.set s.ptr _) s.ptr) = _
    rw [array_set_self hp, List.take_left' hl1]
    simp only [read]
    rw [List.eraseIdx_eq_take_drop_succ, List.take_take, List.drop_take,
      Nat.min_eq_left (by omega)]

theorem sliceRemove_lt {h h' : Heap Node} {s s' : Slice} {i : Nat}
    (e : sliceRemove h s i = some (h', s')) : i < s.len := by
  unfold sliceRemove at e
  split at e
  · omega
  · cases e

theorem wf_new (h0 : Heap Node) :
    WF (NewConcurrentClusterData h0).heap (NewConcurrentClusterData h0).nodes := by
  refine ⟨by simp [NewConcurrentClusterData], ?_, Nat.le_refl _⟩
  show (array (h0 ++ [[]]) h0.length).length = 0
  rw [array_append_self]; rfl

theorem abs_new (h0 : Heap Node) :
    abs (NewConcurrentClusterData h0) = Inventory.NewConcurrentClusterData := by
  show ConcurrentClusterData.mk ⟨List.take 0 _⟩ [] = _
  rfl

/-- One call on the heap store does what the call does on the sequential
store, and touches only the store's own array or a fresh one. -/
theorem applyOp_spec [Inhabited Node] (grow : Nat → Nat) {hs : Store Node}
    (hwf : WF hs.heap hs.nodes) (hinv : Inv (abs hs)) (op : Op Node) :
    ∃ hs', applyOp grow hs op = some hs' ∧ Owns hs.heap hs.nodes hs'.heap hs'.nodes ∧
      Inventory.applyOp (abs hs) op = some (abs hs') ∧ Inv (abs hs') := by
  have hrl : (read hs.heap hs.nodes).length = hs.nodes.len := by
    have := hwf.2.1; have := hwf.2.2
    simp [read]; omega
  cases op with
  | update x r =>
    cases hx : mapGet hs.podNodeMap x with
    | some i =>
      have hi : i < hs.nodes.len := by
        have := hinv.bound _ (mem_of_mapGet (show mapGet (abs hs).podNodeMap x = some i from hx))
        simpa [abs, hrl] using this
      obtain ⟨h', e, ho, hr⟩ := sliceSet_spec hwf hi r
      have hpure := UpdateNode_present hinv (show mapGet (abs hs).podNodeMap x = some i from hx) r
      have habs : abs { hs with heap := h' }
          = { cluster := { Nodes := (abs hs).cluster.Nodes.set i r },
              podNodeMap := (abs hs).podNodeMap } := by
        simp [abs, hr]
      refine ⟨{ hs with heap := h' }, by simp [applyOp, UpdateNode, hx, e], ho, ?_, ?_⟩
      · rw [habs]; exact hpure
      · rw [habs]; exact inv_update_present hinv i r
    | none =>
      obtain ⟨ho, hr, hl⟩ := sliceAppend_spec grow hwf r
      have hx' : mapGet (abs hs).podNodeMap x = none := hx
      have hpure := UpdateNode_absent (abs hs) hx' r
      have habs : abs { heap := (sliceAppend grow hs.heap hs.nodes r).1,
                        nodes := (sliceAppend grow hs.heap hs.nodes r).2,
                        podNodeMap := mapSet hs.podNodeMap x
                          ((sliceAppend grow hs.heap hs.nodes r).2.len - 1) }
          = { cluster := { Nodes := (abs hs).cluster.Nodes ++ [r] },
              podNodeMap := (abs hs).podNodeMap ++ [(x, (abs hs).cluster.Nodes.length)] } := by
        simp [abs, hr, hl, hrl, mapSet_of_absent _ _ _ hx]
      refine ⟨{ heap := (sliceAppend grow hs.heap hs.nodes r).1,
                nodes := (sliceAppend grow hs.heap hs.nodes r).2,
                podNodeMap := mapSet hs.podNodeMap x
                  ((sliceAppend grow hs.heap hs.nodes r).2.len - 1) },
        by simp only [applyOp, UpdateNode, hx], ho, ?_, ?_⟩
      · rw [habs]; exact hpure
      · rw [habs]; exact inv_update_absent hinv hx' r
  | remove x =>
    cases hx : mapGet hs.podNodeMap x with
    | some i =>
      have hx' : mapGet (abs hs).podNodeMap x = some i := hx
      have hi : i < hs.nodes.len := by
        have := hinv.bound _ (mem_of_mapGet hx')
        simpa [abs, hrl] using this
      obtain ⟨h', s', e, ho, hr⟩ := sliceRemove_spec hwf hi
      have hpure := RemoveNode_present hinv hx'
      have habs : abs { heap := h', nodes := s',
                        podNodeMap := reindex i (mapDelete hs.podNodeMap x)
                          (mapDelete hs.podNodeMap x) }
          = { cluster := { Nodes := (abs hs).cluster.Nodes.eraseIdx i },
              podNodeMap := (mapDelete (abs hs).podNodeMap x).map (shift i) } := by
        have hk : (hs.podNodeMap.map Prod.fst).Nodup := hinv.keys_nodup
        simp [abs, hr, reindex_eq_map _ _ (mapDelete_nodup x hk)]
      refine ⟨{ heap := h', nodes := s',
                podNodeMap := reindex i (mapDelete hs.podNodeMap x) (mapDelete hs.podNodeMap x) },
        by simp [applyOp, RemoveNode, hx, e], ho, ?_, ?_⟩
      · rw [habs]; exact hpure
      · rw [habs]; exact inv_remove_present hinv hx'
    | none =>
      exact ⟨hs, by simp [applyOp, RemoveNode, hx], owns_refl hwf,
        RemoveNode_absent (abs hs) hx, hinv⟩

theorem run_spec [Inhabited Node] (grow : Nat → Nat) (ops : List (Op Node)) {hs : Store Node}
    (hwf : WF hs.heap hs.nodes) (hinv : Inv (abs hs)) :
    ∃ hs', run grow ops hs = some hs' ∧ Owns hs.heap hs.nodes hs'.heap hs'.nodes ∧
      Inventory.run ops (abs hs) = some (abs hs') ∧ Inv (abs hs') := by
  induction ops generalizing hs with
  | nil => exact ⟨hs, rfl, owns_refl hwf, rfl, hinv⟩
  | cons op ops ih =>
    obtain ⟨hs1, e1, o1, p1, i1⟩ := applyOp_spec grow hwf hinv op
    obtain ⟨hs2, e2, o2, p2, i2⟩ := ih o1.wf i1
    exact ⟨hs2, by simp [run, e1, e2], o1.trans o2, by simp [Inventory.run, p1, p2], i2⟩

theorem Reachable.wf_inv [Inhabited Node] {grow : Nat → Nat} {hs : Store Node}
    (hr : Reachable grow hs) :
    WF hs.heap hs.nodes ∧ Inv (abs hs) ∧ Inventory.Reachable (abs hs) := by
  obtain ⟨h0, ops, e⟩ := hr
  obtain ⟨hs', e', o, p, i⟩ := run_spec grow ops (wf_new h0)
    (by rw [abs_new]; exact inv_new)
  rw [e] at e'
  cases e'
  exact ⟨o.wf, i, ops, by rw [← abs_new h0]; exact p⟩

theorem set_last (h : Heap Node) (a b : List Node) : (h ++ [a]).set h.length b = h ++ [b] := by
  simp [List.set_append]

theorem copyLoop_spec [Inhabited Node] (h : Heap Node) (src : Slice) (hwf : WF h src)
    (n i : Nat) (hni : i + n = src.len) :
    copyLoop src { ptr := h.length, len := src.len, cap := src.len } n i
        (h ++ [(read h src).take i ++ List.replicate n default])
      = some (h ++ [read h src]) := by
  obtain ⟨hp, hlen, hle⟩ := hwf
  have hrl : (read h src).length = src.len := by simp [read]; omega
  induction n generalizing i with
  | zero =>
    simp only [copyLoop, List.replicate_zero, List.append_nil]
    rw [List.take_of_length_le (by omega)]
  | succ n ih =>
    have hi : i < src.len := by omega
    have hia : i < (array h src.ptr).length := by omega
    have hir : i < (read h src).length := by omega
    have hget : (array h src.ptr)[i]? = some ((read h src)[i]) := by
      simp [read, List.getElem?_eq_getElem hia]
    have hset : sliceSet (h ++ [(read h src).take i ++ List.replicate (n + 1) default])
        { ptr := h.length, len := src.len, cap := src.len } i ((read h src)[i])
        = some (h ++ [(read h src).take (i + 1) ++ List.replicate n default]) := by
      have hz : i - (List.take i (read h src)).length = 0 := by
        rw [List.length_take]; omega
      have hx : ((read h src).take i ++ List.replicate (n + 1) default).set i ((read h src)[i])
          = (read h src).take (i + 1) ++ List.replicate n default := by
        rw [List.set_append_right _ _ (by simp), hz, List.replicate_succ, List.set_cons_zero,
          List.take_succ, List.getElem?_eq_getElem hir]
        simp only [Option.toList_some, List.append_assoc, List.singleton_append]
      simp only [sliceSet, hi, if_true, array_append_self, set_last, hx]
    simp only [copyLoop, array_append_lt hp, hget, Option.some_bind, hset]
    exact ih (i + 1) (by omega)

/-- On the heap `deepCopy` allocates one array, fills it with the records the
argument shows, and returns a slice of exactly that length on it. -/
theorem deepCopy_spec [Inhabited Node] (h : Heap Node) (src : Slice) (hwf : WF h src) :
    deepCopy h (some src)
      = some (h ++ [read h src], some { ptr := h.length, len := src.len, cap := src.len }) := by
  have := copyLoop_spec h src hwf src.len 0 (by simp)
  simp only [List.take_zero, List.nil_append] at this
  simp [deepCopy, sliceMake, this]

theorem mutate_spec [Inhabited Node] (grow : Nat → Nat) {h h' : Heap Node} {snap snap' : Slice}
    (hwf : WF h snap) {m : SnapshotMutation Node}
    (e : mutate grow h snap m = some (h', snap')) : Owns h snap h' snap' := by
  cases m with
  | setNode i v =>
    simp only [mutate, Option.map_eq_some'] at e
    obtain ⟨h1, e1, e2⟩ := e
    obtain ⟨h2, e3, ho, _⟩ := sliceSet_spec hwf (sliceSet_lt e1) v
    rw [e1] at e3
    cases e3; cases e2
    exact ho
  | appendNode v =>
    simp only [mutate, Option.some.injEq] at e
    have ho := (sliceAppend_spec grow hwf v).1
    rw [e] at ho
    exact ho
  | reslice k =>
    simp only [mutate] at e
    split at e
    · cases e
      exact ⟨⟨hwf.1, hwf.2.1, by assumption⟩, Nat.le_refl _, Or.inl (Eq.refl _),
        fun _ _ _ => Eq.refl _⟩
    · cases e
  | removeNode i =>
    simp only [mutate] at e
    obtain ⟨h2, s2, e3, ho, _⟩ := sliceRemove_spec hwf (sliceRemove_lt e)
    rw [e] at e3
    cases e3
    exact ho

theorem mutateAll_spec [Inhabited Node] (grow : Nat → Nat) (ms : List (SnapshotMutation Node))
    {h h' : Heap Node} {snap snap' : Slice} (hwf : WF h snap)
    (e : mutateAll grow ms h snap = some (h', snap')) : Owns h snap h' snap' := by
  induction ms generalizing h snap with
  | nil =>
    simp only [mutateAll, Option.some.injEq, Prod.mk.injEq] at e
    obtain ⟨rfl, rfl⟩ := e
    exact owns_refl hwf
  | cons m ms ih =>
    simp only [mutateAll, Option.bind_eq_some] at e
    obtain ⟨⟨h1, s1⟩, e1, e2⟩ := e
    have o1 := mutate_spec grow hwf e1
    exact o1.trans (ih o1.wf e2)

end Mem

/-! ## The snapshot and the store on the heap -/

/-- Independence at the level of the `Nodes` slices. On a reachable heap
store, `GetCurrentClusterState` returns a snapshot that shows exactly the
records of `cluster.Nodes` at the call, in order (the same list the sequential
`GetCurrentClusterState` gives), and leaves the store as it was. Every later
sequence of `UpdateNode` / `RemoveNode` calls on the store runs as on the
sequential store and leaves the records the snapshot shows unchanged; every
sequence of mutations of the snapshot's slice (element assignment, append,
reslice, removal) leaves the records of the store unchanged. What a record
refers to through a field of its own is not part of this statement. -/
theorem snapshot_slices_independent [Inhabited Node] (grow : Nat → Nat) (hs : Mem.Store Node)
    (hr : Mem.Reachable grow hs) :
    ∃ h1 snap, Mem.GetCurrentClusterState hs = some (h1, some snap) ∧
      Mem.read h1 snap = (Mem.abs hs).cluster.Nodes ∧
      GetCurrentClusterState (Mem.abs hs) = some (some { Nodes := Mem.read h1 snap }) ∧
      Mem.abs { hs with heap := h1 } = Mem.abs hs ∧
      (∀ ops : List (Op Node), ∃ hs2, Mem.run grow ops { hs with heap := h1 } = some hs2 ∧
        run ops (Mem.abs hs) = some (Mem.abs hs2) ∧
        Mem.read hs2.heap snap = (Mem.abs hs).cluster.Nodes) ∧
      (∀ (muts : List (Mem.SnapshotMutation Node)) h2 snap2,
        Mem.mutateAll grow muts h1 snap = some (h2, snap2) →
        Mem.abs { hs with heap := h2 } = Mem.abs hs) := by
  obtain ⟨hwf, hinv, _⟩ := hr.wf_inv
  have hp := hwf.1
  have hrl : (Mem.read hs.heap hs.nodes).length = hs.nodes.len := by
    have := hwf.2.1; have := hwf.2.2
    simp [Mem.read]; omega
  -- the snapshot slice and the heap after the call
  let snap : Slice := { ptr := hs.heap.length, len := hs.nodes.len, cap := hs.nodes.len }
  let h1 : Heap Node := hs.heap ++ [Mem.read hs.heap hs.nodes]
  have hsnap_read : Mem.read h1 snap = Mem.read hs.heap hs.nodes := by
    show List.take hs.nodes.len (Mem.array (hs.heap ++ [_]) hs.heap.length) = _
    rw [Mem.array_append_self, List.take_of_length_le (by omega)]
  have hsnap_wf : Mem.WF h1 snap := by
    refine ⟨by simp [h1, snap], ?_, Nat.le_refl _⟩
    show (Mem.array (hs.heap ++ [_]) hs.heap.length).length = hs.nodes.len
    rw [Mem.array_append_self, hrl]
  have hstore_arr : Mem.array h1 hs.nodes.ptr = Mem.array hs.heap hs.nodes.ptr :=
    Mem.array_append_lt hp _
  have hstore_wf : Mem.WF h1 hs.nodes :=
    ⟨by simp [h1]; omega, by rw [hstore_arr]; exact hwf.2.1, hwf.2.2⟩
  have hstore_abs : Mem.abs { hs with heap := h1 } = Mem.abs hs := by
    simp [Mem.abs, Mem.read, hstore_arr]
  have hne : snap.ptr ≠ hs.nodes.ptr := by
    show hs.heap.length ≠ hs.nodes.ptr
    omega
  refine ⟨h1, snap, Mem.deepCopy_spec hs.heap hs.nodes hwf, hsnap_read, ?_, hstore_abs, ?_, ?_⟩
  · rw [GetCurrentClusterState_eq, hsnap_read]; rfl
  · intro ops
    have hinv1 : Inv (Mem.abs { hs with heap := h1 }) := by rw [hstore_abs]; exact hinv
    obtain ⟨hs2, e, o, p, _⟩ := Mem.run_spec grow ops hstore_wf hinv1
    refine ⟨hs2, e, by rw [← hstore_abs]; exact p, ?_⟩
    rw [(o.other hsnap_wf hne).2.2, hsnap_read]; rfl
  · intro muts h2 snap2 e
    have o := Mem.mutateAll_spec grow muts hsnap_wf e
    have := (o.other hstore_wf (Ne.symm hne)).2.2
    simp only [Mem.abs, this]
    simp [Mem.read, hstore_arr]

/-- The slice-level independence on the store after `a`, `b`, `c` were
upserted, with a growth policy that doubles the capacity. -/
theorem snapshot_slices_independent_demo :
    ∃ h1 snap, Mem.GetCurrentClusterState Mem.demoStore = some (h1, some snap) ∧
      Mem.read h1 snap = (Mem.abs Mem.demoStore).cluster.Nodes ∧
      GetCurrentClusterState (Mem.abs Mem.demoStore) = some (some { Nodes := Mem.read h1 snap }) ∧
      Mem.abs { Mem.demoStore with heap := h1 } = Mem.abs Mem.demoStore ∧
      (∀ ops : List (Op Nat), ∃ hs2,
        Mem.run (fun c => 2 * c) ops { Mem.demoStore with heap := h1 } = some hs2 ∧
        run ops (Mem.abs Mem.demoStore) = some (Mem.abs hs2) ∧
        Mem.read hs2.heap snap = (Mem.abs Mem.demoStore).cluster.Nodes) ∧
      (∀ (muts : List (Mem.SnapshotMutation Nat)) h2 snap2,
        Mem.mutateAll (fun c => 2 * c) muts h1 snap = some (h2, snap2) →
        Mem.abs { Mem.demoStore with heap := h2 } = Mem.abs Mem.demoStore) :=
  snapshot_slices_independent (fun c => 2 * c) Mem.demoStore
    ⟨[], [.update "a" 1, .update "b" 2, .update "c" 3], by decide⟩

/-- The heap model tells a copy from an alias: had the snapshot been the
store's own slice header, `RemoveNode "a"` would have changed what it shows. -/
theorem alias_would_leak :
    (Mem.RemoveNode Mem.demoStore "a").map (fun hs2 => Mem.read hs2.heap Mem.demoStore.nodes)
      = some [2, 3, 3] ∧
    Mem.read Mem.demoStore.heap Mem.demoStore.nodes = [1, 2, 3] := by
  decide

/-- A snapshot record is the store's record, field by field: `copiedNode := node`
copies the struct, so a slice header inside it is copied as a header. -/
theorem snapshot_records_eq [Inhabited Node] (grow : Nat → Nat) (hs : Mem.Store Node)
    (hr : Mem.Reachable grow hs) :
    ∃ h1 snap, Mem.GetCurrentClusterState hs = some (h1, some snap) ∧
      Mem.read h1 snap = Mem.read h1 hs.nodes := by
  obtain ⟨hwf, _, _⟩ := hr.wf_inv
  have hrl : (Mem.read hs.heap hs.nodes).length = hs.nodes.len := by
    have := hwf.2.1; have := hwf.2.2
    simp [Mem.read]; omega
  refine ⟨_, _, Mem.deepCopy_spec hs.heap hs.nodes hwf, ?_⟩
  show List.take hs.nodes.len (Mem.array (hs.heap ++ [_]) hs.heap.length)
    = List.take hs.nodes.len (Mem.array (hs.heap ++ [_]) hs.nodes.ptr)
  rw [Mem.array_append_self, Mem.array_append_lt hwf.1, List.take_of_length_le (by omega)]
  rfl

/-- C5, the code at the failing input: the store holds one record, of pod `a`,
whose inventory slice shows `["t4"]`. `GetCurrentClusterState` returns a
snapshot in a fresh array whose record carries the same slice header as the
store's record. The holder then runs `snap.Nodes[0].accelerators[0] = "h100"`:
the record of the store, untouched as a struct, now shows `["h100"]`. -/
theorem snapshot_shares_nested_data :
    Mem.Reachable (fun c => 2 * c) gpuStore ∧
    ∃ h1 snap, Mem.GetCurrentClusterState gpuStore = some (h1, some snap) ∧
      snap.ptr ≠ gpuStore.nodes.ptr ∧
      (Mem.read h1 snap).map (fun r => r.accelerators)
        = (Mem.read h1 gpuStore.nodes).map (fun r => r.accelerators) ∧
      (Mem.read h1 gpuStore.nodes).map (deepRead [["t4"]]) = [("gpu-node", ["t4"])] ∧
      ∃ objs, setAccelerator [["t4"]] h1 snap 0 0 "h100" = some objs ∧
        (Mem.read h1 gpuStore.nodes).map (deepRead objs) = [("gpu-node", ["h100"])] :=
  ⟨⟨[], [.update "a" { model := "gpu-node", accelerators := { ptr := 0, len := 1, cap := 1 } }],
      by decide⟩,
    _, _, rfl, by decide, by decide, by decide, _, rfl, by decide⟩

/-! ## The HTTP snapshot endpoint -/

/-- C9, as stated, fails: for the store as `GetInstance` builds it the handler
answers 200 with a body that is a JSON object with the member `nodes`, not a
JSON array. -/
theorem empty_snapshot_body_counterexample :
    (getClusterStateHandler demoEncoding GetInstance).map (fun r => (r.status, r.body))
      = some (200, some (JSON.obj [("nodes", JSON.arr [])])) ∧
    JSON.obj [("nodes", JSON.arr [])] ≠ JSON.arr [] :=
  ⟨rfl, fun h => JSON.noConfusion h⟩

/-- C9, amended: for the store as `GetInstance` builds it the handler answers
200 with `Content-Type: application/json` and the JSON object of the
`Cluster`, whose member for `Nodes` is the empty JSON array; for any store
whose records all encode, it answers 200 with that object, the member for
`Nodes` being the JSON array of the encodings of the records of the current
snapshot, in order. -/
theorem getClusterStateHandler_body [Inhabited Node] (enc : ClusterEncoding Node) :
    (∃ resp, getClusterStateHandler enc GetInstance = some resp ∧
      resp.status = 200 ∧ resp.contentType = some "application/json" ∧
      resp.body = some (JSON.obj (enc.before ++ [(enc.nodesKey, JSON.arr [])] ++ enc.after))) ∧
    (∀ (s : ConcurrentClusterData Node) (js : List JSON),
      encodeNodes enc s.cluster.Nodes = some js →
      GetCurrentClusterState s = some (some { Nodes := s.cluster.Nodes }) ∧
      ∃ resp, getClusterStateHandler enc s = some resp ∧
        resp.status = 200 ∧ resp.contentType = some "application/json" ∧
        resp.body = some (JSON.obj (enc.before ++ [(enc.nodesKey, JSON.arr js)] ++ enc.after))) := by
  have general : ∀ (s : ConcurrentClusterData Node) (js : List JSON),
      encodeNodes enc s.cluster.Nodes = some js →
      GetCurrentClusterState s = some (some { Nodes := s.cluster.Nodes }) ∧
      ∃ resp, getClusterStateHandler enc s = some resp ∧
        resp.status = 200 ∧ resp.contentType = some "application/json" ∧
        resp.body = some (JSON.obj (enc.before ++ [(enc.nodesKey, JSON.arr js)] ++ enc.after)) := by
    intro s js hjs
    refine ⟨GetCurrentClusterState_eq s,
      { status := 200, contentType := some "application/json",
        body := some (JSON.obj (enc.before ++ [(enc.nodesKey, JSON.arr js)] ++ enc.after)) },
      ?_, rfl, rfl, rfl⟩
    simp [getClusterStateHandler, GetCurrentClusterState_eq, encodeCluster, hjs]
  exact ⟨(general GetInstance [] rfl).2, general⟩

/-! ## A snapshot taken beside a writer -/

/-- The reader alone: the two steps of `GetCurrentClusterState` in a row give
the records of the store. -/
theorem exec_reader_alone [Inhabited Node] (σ : Sys Node) :
    exec [.readerMake, .readerRange] σ
      = some { σ with copied := some (makeNodes σ.store.cluster.Nodes.length),
                      snapshot := some σ.store.cluster.Nodes } := by
  simp [exec, step, makeNodes,
    copyLoop_eq σ.store.cluster.Nodes 0 (List.replicate σ.store.cluster.Nodes.length default)
      (by simp)]

/-- C10, the code at the failing input: the store holds `a` (record 1) and `b`
(record 2); a writer takes the lock and runs `RemoveNode "a"`; the reader,
which takes no lock, runs its `make` before the writer's body and its `range`
loop after it, all while the writer holds the lock. The snapshot is `[2, 0]`:
neither the records before the call, `[1, 2]`, nor those after it, `[2]`. -/
theorem snapshot_torn_by_unlocked_read :
    ∃ σ : Sys Nat,
      exec [.writerLock, .readerMake, .writerBody (.remove "a"), .readerRange, .writerUnlock]
        (Sys.init ⟨⟨[1, 2]⟩, [("a", 0), ("b", 1)]⟩) = some σ ∧
      σ.store = ⟨⟨[2]⟩, [("b", 0)]⟩ ∧
      σ.snapshot = some [2, 0] ∧
      σ.snapshot ≠ some [1, 2] ∧ σ.snapshot ≠ some [2] :=
  ⟨_, rfl, by decide, rfl, by decide, by decide⟩


end Inventory
